import Mathlib

/-!
Shallow embedding of the pack-calculation core of `item-packer-inc`
(package `internal/storage`, files `internal/models` and
`internal/storage/storage.go`), together with proofs about the claims of
the specification.

Modelling conventions:
* Go `int` values (pack amounts, quantities, item counts) are modelled as
  `Int`; the spec's data model ranges over mathematical integers, and no
  claim in scope concerns 64-bit wrap-around.
* Go integer division/remainder truncate toward zero; they are modelled by
  `Int.tdiv` / `Int.tmod`.
* Go's `sort.Slice` (on slices whose keys are pairwise distinct wherever a
  claim needs the order) is modelled by `List.insertionSort`, which yields
  the same sorted arrangement for distinct keys.
* The map `sizeGroups` in `tryMergeSameSizePacks` is a Go map; its
  iteration order is unspecified.  The canonical model enumerates the
  groups in first-insertion order (the order group keys first appear in
  `order.Packs`); a schedule-parameterised variant `mergePacksLoopWith`
  models an arbitrary enumeration order and is used to settle the
  determinism claim.
* `getPacks` returns a deep copy of the stored pack values; since packs are
  modelled as immutable values, the copy is the identity.
-/

/-- Pack (Go `models.Pack`): a package with a specific amount of items. -/
structure Pack where
  amount : Int
deriving DecidableEq, Repr

/-- OrderPack (Go `models.OrderPack`): a pack used in an order with its
quantity.  The Go field `Pack *models.Pack` is a pointer, but order lines
reference deep copies of the catalog packs, so value semantics is faithful. -/
structure OrderPack where
  quantity : Int
  pack : Pack
deriving DecidableEq, Repr

/-- Order (Go `models.Order`): a customer order with requested items and
packing details. -/
structure Order where
  requestedItems : Int
  overpackedItems : Int
  totalItems : Int
  packs : List OrderPack
deriving DecidableEq, Repr

instance : Inhabited Order := ⟨⟨0, 0, 0, []⟩⟩

/-- Errors of the storage package (Go package-level `errors.New` values). -/
inductive StorageError where
  | packNotFound
  | noPacksAvailable
  | packExists
  | softLimitReached
deriving DecidableEq, Repr

/-- PackStorage (Go `storage.PackStorage`): in-memory storage for packs and
orders.  The mutex only serialises access and has no sequential meaning. -/
structure PackStorage where
  packs : List Pack
  orders : List Order
deriving DecidableEq, Repr

/-- NewPackStorage: empty storage. -/
def NewPackStorage : PackStorage := ⟨[], []⟩

/-- Go integer division (truncation toward zero). -/
def goDiv (a b : Int) : Int := Int.tdiv a b

/-- Go integer remainder (truncation toward zero). -/
def goMod (a b : Int) : Int := Int.tmod a b

/-- Descending comparison used by `resortPacks` (`sort.Slice` with
`s.packs[i].Amount > s.packs[j].Amount`). -/
def packDesc (a b : Pack) : Prop := b.amount ≤ a.amount

instance : DecidableRel packDesc := fun a b =>
  inferInstanceAs (Decidable (b.amount ≤ a.amount))

instance : IsTotal Pack packDesc := ⟨fun a b => le_total b.amount a.amount⟩

instance : IsTrans Pack packDesc := ⟨fun _ _ _ h1 h2 => le_trans h2 h1⟩

/-- Ascending comparison used by `getSortedPackSizes` (`sort.Slice` with
`sorted[i].Amount < sorted[j].Amount`). -/
def packAsc (a b : Pack) : Prop := a.amount ≤ b.amount

instance : DecidableRel packAsc := fun a b =>
  inferInstanceAs (Decidable (a.amount ≤ b.amount))

instance : IsTotal Pack packAsc := ⟨fun a b => le_total a.amount b.amount⟩

instance : IsTrans Pack packAsc := ⟨fun _ _ _ h1 h2 => le_trans h1 h2⟩

/-- resortPacks: sorts the packs in descending order by amount. -/
def resortPacks (packs : List Pack) : List Pack :=
  List.insertionSort packDesc packs

/-- getSortedPackSizes: ascending sorted copy of the pack list, used as the
merge-target scan order. -/
def getSortedPackSizes (packs : List Pack) : List Pack :=
  List.insertionSort packAsc packs

/-- AddPack: adds a new pack with the specified amount.  Adding an existing
amount is a silent no-op; beyond the soft limit the add is rejected. -/
def AddPack (softLimit : Nat) (s : PackStorage) (amount : Int) :
    Except StorageError Unit × PackStorage :=
  if s.packs.any (fun p => p.amount = amount) then (.ok (), s)
  else if softLimit ≤ s.packs.length then (.error .softLimitReached, s)
  else (.ok (), { s with packs := resortPacks (s.packs ++ [⟨amount⟩]) })

/-- Helper for `UpdatePack`: Go's second loop updates the first pack whose
amount equals `oldAmount`, returning `none` when no pack matches. -/
def updateFirst : List Pack → Int → Int → Option (List Pack)
  | [], _, _ => none
  | p :: rest, oldAmount, newAmount =>
    if p.amount = oldAmount then some (⟨newAmount⟩ :: rest)
    else (updateFirst rest oldAmount newAmount).map (p :: ·)

/-- UpdatePack: updates a pack's amount.  Fails with `packExists` when any
pack already has the new amount, with `packNotFound` when the old amount is
absent. -/
def UpdatePack (s : PackStorage) (oldAmount newAmount : Int) :
    Except StorageError Unit × PackStorage :=
  if s.packs.any (fun p => p.amount = newAmount) then (.error .packExists, s)
  else
    match updateFirst s.packs oldAmount newAmount with
    | some packs => (.ok (), { s with packs := resortPacks packs })
    | none => (.error .packNotFound, s)

/-- Helper for `DeletePack`: removes the first pack whose amount matches,
returning `none` when no pack matches. -/
def deleteFirst : List Pack → Int → Option (List Pack)
  | [], _ => none
  | p :: rest, amount =>
    if p.amount = amount then some rest
    else (deleteFirst rest amount).map (p :: ·)

/-- DeletePack: removes the pack with the specified amount. -/
def DeletePack (s : PackStorage) (amount : Int) :
    Except StorageError Unit × PackStorage :=
  match deleteFirst s.packs amount with
  | some packs => (.ok (), { s with packs := packs })
  | none => (.error .packNotFound, s)

/-- Loop body of `useFullPacks`: iterates over the pack list, keeping the
remaining item count and the order under construction. -/
def useFullPacksAux : List Pack → Int → Order → Int × Order
  | [], rem, order => (rem, order)
  | p :: rest, rem, order =>
    if p.amount ≤ rem then
      if 0 < goDiv rem p.amount then
        useFullPacksAux rest (rem - goDiv rem p.amount * p.amount)
          { order with
            packs := order.packs ++ [⟨goDiv rem p.amount, p⟩],
            totalItems := order.totalItems + goDiv rem p.amount * p.amount }
      else useFullPacksAux rest rem order
    else useFullPacksAux rest rem order

/-- useFullPacks: greedily uses full packs (largest first, the pack list is
sorted descending by the caller) for the requested items; may leave a
remainder when no pack fits exactly. -/
def useFullPacks (packs : List Pack) (order : Order) : Int × Order :=
  useFullPacksAux packs order.requestedItems order

/-- addPackForRemainingItems: if items remain after the greedy pass, appends
one instance of the smallest pack (the last of the descending-sorted list).
Go indexes `packs[len(packs)-1]`, which panics on an empty list; the caller
(`CalculateOrder`) guarantees the list is non-empty, and the `none` branch
here is unreachable in that context. -/
def addPackForRemainingItems (remainingItems : Int) (packs : List Pack)
    (order : Order) : Order :=
  if remainingItems ≤ 0 then order
  else
    match packs.getLast? with
    | none => order
    | some smallestPack =>
      { order with
        packs := order.packs ++ [⟨1, smallestPack⟩],
        totalItems := order.totalItems + smallestPack.amount }

/-- Adds `q` to the entry for `size` in the association list of size groups,
appending a new entry when the key is absent (Go `sizeGroups[size] += q`). -/
def addToGroups : List (Int × Int) → Int → Int → List (Int × Int)
  | [], size, q => [(size, q)]
  | (s, c) :: rest, size, q =>
    if s = size then (s, c + q) :: rest
    else (s, c) :: addToGroups rest size q

/-- Go `sizeGroups` map of `tryMergeSameSizePacks`, grouping the order lines
by pack size and summing their quantities.  The entries are kept in
first-insertion order; the Go map's iteration order is unspecified (see the
determinism claim, which quantifies over enumeration orders). -/
def sizeGroups (lines : List OrderPack) : List (Int × Int) :=
  lines.foldl (fun g p => addToGroups g p.pack.amount p.quantity) []

/-- Qualification test of the same-size merge scan: the target is strictly
larger than the group size, an exact multiple of it, and the group holds at
least `target / size` units. -/
def sameSizeQual (tAmount : Int) (g : Int × Int) : Bool :=
  decide (g.1 < tAmount) && decide (goMod tAmount g.1 = 0) &&
    decide (goDiv tAmount g.1 ≤ g.2)

/-- Scan of `tryMergeSameSizePacks`: targets in the given (ascending) order,
groups in the given enumeration order; returns the first qualifying
(group size, target amount) pair. -/
def findSameSizeMerge : List Pack → List (Int × Int) → Option (Int × Int)
  | [], _ => none
  | t :: rest, groups =>
    match groups.find? (sameSizeQual t.amount) with
    | some g => some (g.1, t.amount)
    | none => findSameSizeMerge rest groups

/-- Removal loop of `mergePack`: walks the order lines, removing
`remainingToRemove` units of size `fromSize`.  The Go loop decrements the
copied line before updating `remainingToRemove`, which is reproduced
verbatim here. -/
def mergePackRemove : List OrderPack → Int → Int → List OrderPack
  | [], _, _ => []
  | p :: rest, fromSize, rtr =>
    if p.pack.amount = fromSize then
      if rtr < p.quantity then
        ⟨p.quantity - rtr, p.pack⟩ ::
          mergePackRemove rest fromSize (rtr - min rtr (p.quantity - rtr))
      else mergePackRemove rest fromSize (rtr - min rtr p.quantity)
    else p :: mergePackRemove rest fromSize rtr

/-- Second half of `mergePack`: increments the first line of size `toSize`,
or appends a fresh line of quantity 1 when none exists. -/
def bumpOrAppend : List OrderPack → Int → List OrderPack
  | [], toSize => [⟨1, ⟨toSize⟩⟩]
  | p :: rest, toSize =>
    if p.pack.amount = toSize then ⟨p.quantity + 1, p.pack⟩ :: rest
    else p :: bumpOrAppend rest toSize

/-- mergePack: replaces `quantity` units of size `fromSize` by one unit of
size `toSize` in the order's lines. -/
def mergePack (order : Order) (fromSize toSize quantity : Int) : Order :=
  { order with
    packs := bumpOrAppend (mergePackRemove order.packs fromSize quantity) toSize }

/-- tryMergeSameSizePacks: groups the lines by size and applies the first
qualifying same-size merge (targets scanned ascending); returns whether a
merge was applied.  `groups` is the enumeration of the Go map. -/
def tryMergeSameSizePacksOn (availablePacks : List Pack)
    (groups : List (Int × Int)) (order : Order) : Bool × Order :=
  match findSameSizeMerge availablePacks groups with
  | some (size, tAmount) =>
    (true, mergePack order size tAmount (goDiv tAmount size))
  | none => (false, order)

/-- tryMergeSameSizePacks with the canonical (first-insertion) enumeration
of the group map. -/
def tryMergeSameSizePacks (availablePacks : List Pack) (order : Order) :
    Bool × Order :=
  tryMergeSameSizePacksOn availablePacks (sizeGroups order.packs) order

/-- Qualification test of the cross-size merge scan on a single line. -/
def diffSizeQual (tAmount : Int) (p : OrderPack) : Bool :=
  decide (p.pack.amount < tAmount) && decide (goMod tAmount p.pack.amount = 0) &&
    decide (goDiv tAmount p.pack.amount ≤ p.quantity)

/-- Scan of `tryMergeDifferentSizePacks`: targets in the given (ascending)
order, order lines in list order; returns the first qualifying
(line size, target amount) pair. -/
def findDiffSizeMerge : List Pack → List OrderPack → Option (Int × Int)
  | [], _ => none
  | t :: rest, lines =>
    match lines.find? (diffSizeQual t.amount) with
    | some p => some (p.pack.amount, t.amount)
    | none => findDiffSizeMerge rest lines

/-- tryMergeDifferentSizePacks: applies the first qualifying cross-size
merge, if any (at most one merge per call). -/
def tryMergeDifferentSizePacks (availablePacks : List Pack) (order : Order) :
    Order :=
  match findDiffSizeMerge availablePacks order.packs with
  | some (size, tAmount) => mergePack order size tAmount (goDiv tAmount size)
  | none => order

/-- Loop of `mergePacks` (`for range availablePacks`), canonical map
enumeration: each iteration applies one same-size merge when possible and
otherwise attempts one cross-size merge. -/
def mergePacksLoop (availablePacks : List Pack) : Nat → Order → Order
  | 0, order => order
  | n + 1, order =>
    let r := tryMergeSameSizePacks availablePacks order
    if r.1 then mergePacksLoop availablePacks n r.2
    else mergePacksLoop availablePacks n (tryMergeDifferentSizePacks availablePacks r.2)

/-- mergePacks: consolidation stage; iterates the merge body once per
available pack size to cover chain merges. -/
def mergePacks (packs : List Pack) (order : Order) : Order :=
  let availablePacks := getSortedPackSizes packs
  mergePacksLoop availablePacks availablePacks.length order

/-- Loop of `mergePacks` with an explicit enumeration schedule for the Go
group map: at each iteration the scan sees `sched i` applied to the
canonically-built group list.  `sched i` is required (in the theorems) to be
a permutation; this models the unspecified Go map iteration order. -/
def mergePacksLoopWith (availablePacks : List Pack)
    (sched : Nat → List (Int × Int) → List (Int × Int)) :
    Nat → Order → Order
  | 0, order => order
  | n + 1, order =>
    let r := tryMergeSameSizePacksOn availablePacks
      (sched n (sizeGroups order.packs)) order
    if r.1 then mergePacksLoopWith availablePacks sched n r.2
    else mergePacksLoopWith availablePacks sched n
      (tryMergeDifferentSizePacks availablePacks r.2)

/-- mergePacks under an explicit map-enumeration schedule. -/
def mergePacksWith (sched : Nat → List (Int × Int) → List (Int × Int))
    (packs : List Pack) (order : Order) : Order :=
  let availablePacks := getSortedPackSizes packs
  mergePacksLoopWith availablePacks sched availablePacks.length order

/-- Fresh order as built at the start of `CalculateOrder`. -/
def initOrder (requestedItems : Int) : Order :=
  { requestedItems := requestedItems, overpackedItems := 0,
    totalItems := 0, packs := [] }

/-- Stages 4.1 and 4.2 plus the overpack computation of `CalculateOrder`:
the Order that is fed into the consolidation stage. -/
def orderBeforeMerge (packs : List Pack) (requestedItems : Int) : Order :=
  let r := useFullPacks packs (initOrder requestedItems)
  let order2 := addPackForRemainingItems r.1 packs r.2
  { order2 with overpackedItems := order2.totalItems - requestedItems }

/-- CalculateOrder: calculates the packing for the requested items and
appends the result to the order history, evicting the oldest entries once
the soft limit is reached.  `softLimit` models the package-level variable
`SoftLimit`. -/
def CalculateOrder (softLimit : Nat) (s : PackStorage) (requestedItems : Int) :
    Except StorageError Order × PackStorage :=
  if s.packs.isEmpty then (.error .noPacksAvailable, s)
  else
    let packs := resortPacks s.packs
    let order := mergePacks packs (orderBeforeMerge packs requestedItems)
    let orders :=
      if softLimit ≤ s.orders.length then
        s.orders.drop (s.orders.length - (softLimit - 1))
      else s.orders
    (.ok order, { packs := packs, orders := orders ++ [order] })

/-- CalculateOrder under an explicit map-enumeration schedule (one schedule
per call; the merge loop consumes it per iteration). -/
def CalculateOrderWith (sched : Nat → List (Int × Int) → List (Int × Int))
    (softLimit : Nat) (s : PackStorage) (requestedItems : Int) :
    Except StorageError Order × PackStorage :=
  if s.packs.isEmpty then (.error .noPacksAvailable, s)
  else
    let packs := resortPacks s.packs
    let order := mergePacksWith sched packs (orderBeforeMerge packs requestedItems)
    let orders :=
      if softLimit ≤ s.orders.length then
        s.orders.drop (s.orders.length - (softLimit - 1))
      else s.orders
    (.ok order, { packs := packs, orders := orders ++ [order] })

/-- The order produced by a successful `CalculateOrder` call (used to state
properties of the result; meaningful whenever the catalog is non-empty). -/
def calcOrder (softLimit : Nat) (s : PackStorage) (requestedItems : Int) :
    Order :=
  match (CalculateOrder softLimit s requestedItems).1 with
  | .ok o => o
  | .error _ => default

/-- Catalog mutation operations, for stating the storage invariant. -/
inductive CatalogOp where
  | add (amount : Int)
  | update (oldAmount newAmount : Int)
  | del (amount : Int)
deriving DecidableEq, Repr

/-- Applies one catalog mutation to the storage (result value discarded). -/
def applyOp (softLimit : Nat) (s : PackStorage) : CatalogOp → PackStorage
  | .add amount => (AddPack softLimit s amount).2
  | .update oldAmount newAmount => (UpdatePack s oldAmount newAmount).2
  | .del amount => (DeletePack s amount).2

/-- Applies a sequence of catalog mutations. -/
def applyOps (softLimit : Nat) (s : PackStorage) (ops : List CatalogOp) :
    PackStorage :=
  ops.foldl (applyOp softLimit) s

/-- State after a sequence of `CalculateOrder` calls (orders discarded). -/
def runCalcs (softLimit : Nat) (s : PackStorage) (rs : List Int) :
    PackStorage :=
  rs.foldl (fun s r => (CalculateOrder softLimit s r).2) s

/-- Orders returned by a sequence of successful `CalculateOrder` calls
(failed calls contribute nothing). -/
def calcOutputs (softLimit : Nat) : PackStorage → List Int → List Order
  | _, [] => []
  | s, r :: rs =>
    match CalculateOrder softLimit s r with
    | (.ok o, s') => o :: calcOutputs softLimit s' rs
    | (.error _, s') => calcOutputs softLimit s' rs

/-! ### Aggregate functions used in the statements and proofs -/

/-- Order lines of a given pack size. -/
def linesOf (a : Int) (lines : List OrderPack) : List OrderPack :=
  lines.filter (fun p => p.pack.amount = a)

/-- Total quantity held by the lines of a given pack size (the value of the
Go `sizeGroups` map at key `a`). -/
def qsum (a : Int) (lines : List OrderPack) : Int :=
  ((linesOf a lines).map (fun p => p.quantity)).sum

/-- Total item count carried by a list of order lines. -/
def linesTotal (lines : List OrderPack) : Int :=
  (lines.map (fun p => p.quantity * p.pack.amount)).sum

/-- Item count carried by the lines of size strictly below a threshold. -/
def vBelow (t : Int) (lines : List OrderPack) : Int :=
  linesTotal (lines.filter (fun p => p.pack.amount < t))

/-- Pack sizes of the order lines, in line order. -/
def lineSizes (lines : List OrderPack) : List Int :=
  lines.map (fun p => p.pack.amount)

/-- Pack amounts of a catalog list. -/
def amountsOf (packs : List Pack) : List Int :=
  packs.map Pack.amount

/-! ### Arithmetic bridges between Go division and Euclidean division -/

theorem goDiv_eq_ediv {a b : Int} (ha : 0 ≤ a) (hb : 0 ≤ b) : goDiv a b = a / b :=
  Int.tdiv_eq_ediv ha hb

theorem goMod_eq_emod {a b : Int} (ha : 0 ≤ a) (hb : 0 ≤ b) : goMod a b = a % b :=
  Int.tmod_eq_emod ha hb

theorem goDiv_pos {a b : Int} (hb : 0 < b) (hba : b ≤ a) : 0 < goDiv a b := by
  have ha : 0 ≤ a := le_trans (le_of_lt hb) hba
  rw [goDiv_eq_ediv ha (le_of_lt hb)]
  have h1 : (1 : Int) * b ≤ a := by omega
  have := (Int.le_ediv_iff_mul_le hb).2 h1
  omega

theorem goDiv_mul_le {a b : Int} (ha : 0 ≤ a) (hb : 0 < b) :
    goDiv a b * b ≤ a := by
  rw [goDiv_eq_ediv ha (le_of_lt hb)]
  exact Int.ediv_mul_le a (ne_of_gt hb)

theorem sub_goDiv_mul_eq_emod {a b : Int} (ha : 0 ≤ a) (hb : 0 < b) :
    a - goDiv a b * b = a % b := by
  rw [goDiv_eq_ediv ha (le_of_lt hb), Int.emod_def, mul_comm]

theorem sub_goDiv_mul_lt {a b : Int} (ha : 0 ≤ a) (hb : 0 < b) :
    a - goDiv a b * b < b := by
  rw [sub_goDiv_mul_eq_emod ha hb]
  exact Int.emod_lt_of_pos a hb

theorem goDiv_mul_cancel {a b : Int} (ha : 0 ≤ a) (hb : 0 < b)
    (h : goMod a b = 0) : goDiv a b * b = a := by
  rw [goDiv_eq_ediv ha (le_of_lt hb)]
  rw [goMod_eq_emod ha (le_of_lt hb)] at h
  exact Int.ediv_mul_cancel (Int.dvd_of_emod_eq_zero h)

/-! ### Aggregate bookkeeping lemmas -/

theorem linesTotal_nil : linesTotal [] = 0 := rfl

theorem linesTotal_cons (p : OrderPack) (l : List OrderPack) :
    linesTotal (p :: l) = p.quantity * p.pack.amount + linesTotal l := by
  simp [linesTotal]

theorem linesTotal_append (l1 l2 : List OrderPack) :
    linesTotal (l1 ++ l2) = linesTotal l1 + linesTotal l2 := by
  simp [linesTotal]

theorem linesOf_nil (a : Int) : linesOf a [] = [] := rfl

theorem linesOf_cons (a : Int) (p : OrderPack) (l : List OrderPack) :
    linesOf a (p :: l) =
      if p.pack.amount = a then p :: linesOf a l else linesOf a l := by
  simp only [linesOf, List.filter_cons]
  by_cases h : p.pack.amount = a <;> simp [h]

theorem linesOf_append (a : Int) (l1 l2 : List OrderPack) :
    linesOf a (l1 ++ l2) = linesOf a l1 ++ linesOf a l2 := by
  simp [linesOf, List.filter_append]

theorem qsum_append (a : Int) (l1 l2 : List OrderPack) :
    qsum a (l1 ++ l2) = qsum a l1 + qsum a l2 := by
  simp [qsum, linesOf_append]

theorem qsum_cons (a : Int) (p : OrderPack) (l : List OrderPack) :
    qsum a (p :: l) =
      (if p.pack.amount = a then p.quantity else 0) + qsum a l := by
  simp only [qsum, linesOf_cons]
  by_cases h : p.pack.amount = a <;> simp [h]

theorem lineSizes_append (l1 l2 : List OrderPack) :
    lineSizes (l1 ++ l2) = lineSizes l1 ++ lineSizes l2 := by
  simp [lineSizes]

theorem linesTotal_linesOf (a : Int) (l : List OrderPack) :
    linesTotal (linesOf a l) = qsum a l * a := by
  induction l with
  | nil => simp [qsum, linesTotal, linesOf]
  | cons p rest ih =>
    rw [qsum_cons, linesOf_cons]
    by_cases h : p.pack.amount = a
    · rw [if_pos h, if_pos h, linesTotal_cons, ih, h, add_mul]
    · rw [if_neg h, if_neg h, ih, zero_add]

/-! ### Greedy fill: structural facts about `useFullPacksAux` -/

theorem ufp_main (ps : List Pack) : ∀ (rem : Int) (o : Order),
    (∀ p ∈ ps, 0 < p.amount) → 0 ≤ rem →
    (useFullPacksAux ps rem o).2.requestedItems = o.requestedItems ∧
    (useFullPacksAux ps rem o).2.overpackedItems = o.overpackedItems ∧
    0 ≤ (useFullPacksAux ps rem o).1 ∧
    (useFullPacksAux ps rem o).1 ≤ rem ∧
    (∀ p ∈ ps, (useFullPacksAux ps rem o).1 < p.amount) ∧
    (useFullPacksAux ps rem o).2.totalItems + (useFullPacksAux ps rem o).1
      = o.totalItems + rem ∧
    ∃ new, (useFullPacksAux ps rem o).2.packs = o.packs ++ new ∧
      (∀ l ∈ new, 0 < l.quantity) ∧
      List.Sublist (new.map OrderPack.pack) ps ∧
      linesTotal new + (useFullPacksAux ps rem o).1 = rem := by
  induction ps with
  | nil =>
    intro rem o _ hrem
    refine ⟨rfl, rfl, hrem, le_refl _, by simp, by simp [useFullPacksAux], ?_⟩
    exact ⟨[], by simp [useFullPacksAux], by simp, List.Sublist.refl _,
      by simp [useFullPacksAux, linesTotal]⟩
  | cons p rest ih =>
    intro rem o hpos hrem
    have hppos : 0 < p.amount := hpos p (by simp)
    have hrpos : ∀ q ∈ rest, 0 < q.amount := fun q hq => hpos q (by simp [hq])
    by_cases h1 : p.amount ≤ rem
    · have hq : 0 < goDiv rem p.amount := goDiv_pos hppos h1
      have hstep : useFullPacksAux (p :: rest) rem o =
          useFullPacksAux rest (rem - goDiv rem p.amount * p.amount)
            { o with
              packs := o.packs ++ [⟨goDiv rem p.amount, p⟩],
              totalItems := o.totalItems + goDiv rem p.amount * p.amount } := by
        simp [useFullPacksAux, h1, hq]
      have hrem1 : 0 ≤ rem - goDiv rem p.amount * p.amount := by
        have := goDiv_mul_le hrem hppos
        omega
      have hlt1 : rem - goDiv rem p.amount * p.amount < p.amount :=
        sub_goDiv_mul_lt hrem hppos
      obtain ⟨ha1, ha2, ha3, ha4, ha5, ha6, new, hb1, hb2, hb3, hb4⟩ :=
        ih (rem - goDiv rem p.amount * p.amount)
          { o with
            packs := o.packs ++ [⟨goDiv rem p.amount, p⟩],
            totalItems := o.totalItems + goDiv rem p.amount * p.amount }
          hrpos hrem1
      rw [hstep]
      refine ⟨ha1, ha2, ha3, by omega, ?_, by rw [ha6]; ring, ?_⟩
      · intro q hq'
        rcases List.mem_cons.1 hq' with h | h
        · subst h; omega
        · exact ha5 q h
      · refine ⟨⟨goDiv rem p.amount, p⟩ :: new, ?_, ?_, ?_, ?_⟩
        · rw [hb1]; simp
        · intro l hl
          rcases List.mem_cons.1 hl with h | h
          · subst h; exact hq
          · exact hb2 l h
        · exact List.Sublist.cons₂ p hb3
        · rw [linesTotal_cons]; simp only []
          omega
    · have hstep : useFullPacksAux (p :: rest) rem o =
          useFullPacksAux rest rem o := by
        simp [useFullPacksAux, h1]
      obtain ⟨ha1, ha2, ha3, ha4, ha5, ha6, new, hb1, hb2, hb3, hb4⟩ :=
        ih rem o hrpos hrem
      rw [hstep]
      refine ⟨ha1, ha2, ha3, ha4, ?_, ha6, ?_⟩
      · intro q hq'
        rcases List.mem_cons.1 hq' with h | h
        · subst h; omega
        · exact ha5 q h
      · exact ⟨new, hb1, hb2, List.Sublist.cons p hb3, hb4⟩

/-! ### Sorting facts -/

theorem resortPacks_perm (l : List Pack) : (resortPacks l).Perm l :=
  List.perm_insertionSort packDesc l

theorem resortPacks_sorted (l : List Pack) :
    List.Sorted packDesc (resortPacks l) :=
  List.sorted_insertionSort packDesc l

theorem getSortedPackSizes_perm (l : List Pack) :
    (getSortedPackSizes l).Perm l :=
  List.perm_insertionSort packAsc l

theorem amountsOf_perm {l1 l2 : List Pack} (h : l1.Perm l2) :
    (amountsOf l1).Perm (amountsOf l2) :=
  h.map Pack.amount

theorem mem_amountsOf {a : Int} {l : List Pack} :
    a ∈ amountsOf l ↔ ∃ p ∈ l, p.amount = a := by
  simp [amountsOf]

theorem sorted_getLast_min {l : List Pack} (hs : List.Sorted packDesc l)
    (h : l ≠ []) : ∀ p ∈ l, (l.getLast h).amount ≤ p.amount := by
  induction l with
  | nil => exact absurd rfl h
  | cons x rest ih =>
    intro p hp
    rcases List.mem_cons.1 hp with hpx | hpr
    · subst hpx
      cases rest with
      | nil => simp [List.getLast]
      | cons y t =>
        have hmem : (y :: t).getLast (by simp) ∈ y :: t := List.getLast_mem _
        have := (List.sorted_cons.1 hs).1 _ hmem
        rw [List.getLast_cons (by simp)]
        exact this
    · cases rest with
      | nil => simp at hpr
      | cons y t =>
        rw [List.getLast_cons (by simp)]
        exact ih (List.sorted_cons.1 hs).2 (by simp) p hpr

/-! ### Greedy fill: decomposition over list append -/

theorem ufp_append (l1 l2 : List Pack) (rem : Int) (o : Order) :
    useFullPacksAux (l1 ++ l2) rem o =
      useFullPacksAux l2 (useFullPacksAux l1 rem o).1
        (useFullPacksAux l1 rem o).2 := by
  induction l1 generalizing rem o with
  | nil => simp [useFullPacksAux]
  | cons p rest ih =>
    by_cases h1 : p.amount ≤ rem
    · by_cases h2 : 0 < goDiv rem p.amount
      · simp only [List.cons_append, useFullPacksAux, if_pos h1, if_pos h2]
        exact ih _ _
      · simp only [List.cons_append, useFullPacksAux, if_pos h1, if_neg h2]
        exact ih _ _
    · simp only [List.cons_append, useFullPacksAux, if_neg h1]
      exact ih _ _

/-! ### Value below a size threshold -/

theorem vBelow_nil (t : Int) : vBelow t [] = 0 := rfl

theorem vBelow_append (t : Int) (l1 l2 : List OrderPack) :
    vBelow t (l1 ++ l2) = vBelow t l1 + vBelow t l2 := by
  simp [vBelow, List.filter_append, linesTotal_append]

theorem vBelow_cons (t : Int) (p : OrderPack) (l : List OrderPack) :
    vBelow t (p :: l) =
      (if p.pack.amount < t then p.quantity * p.pack.amount else 0)
        + vBelow t l := by
  simp only [vBelow, List.filter_cons]
  by_cases h : p.pack.amount < t
  · simp [h, linesTotal_cons]
  · simp [h]

theorem vBelow_eq_zero {t : Int} {l : List OrderPack}
    (h : ∀ p ∈ l, t ≤ p.pack.amount) : vBelow t l = 0 := by
  induction l with
  | nil => rfl
  | cons p rest ih =>
    rw [vBelow_cons, if_neg (by have := h p (by simp); omega),
      ih (fun q hq => h q (by simp [hq])), add_zero]

theorem vBelow_le_linesTotal {t : Int} {l : List OrderPack}
    (h : ∀ p ∈ l, 0 ≤ p.quantity * p.pack.amount) :
    vBelow t l ≤ linesTotal l := by
  induction l with
  | nil => simp [vBelow_nil, linesTotal_nil]
  | cons p rest ih =>
    rw [vBelow_cons, linesTotal_cons]
    have h1 := h p (by simp)
    have h2 := ih (fun q hq => h q (by simp [hq]))
    by_cases hc : p.pack.amount < t
    · rw [if_pos hc]; omega
    · rw [if_neg hc]; omega

theorem vBelow_nonneg {t : Int} {l : List OrderPack}
    (h : ∀ p ∈ l, 0 ≤ p.quantity * p.pack.amount) : 0 ≤ vBelow t l := by
  induction l with
  | nil => simp [vBelow_nil]
  | cons p rest ih =>
    rw [vBelow_cons]
    have h1 := h p (by simp)
    have h2 := ih (fun q hq => h q (by simp [hq]))
    by_cases hc : p.pack.amount < t
    · rw [if_pos hc]; omega
    · rw [if_neg hc]; omega

/-! ### Characterisation of the order fed into consolidation -/

theorem obm_facts (packs : List Pack) (R : Int) (hne : packs ≠ [])
    (hpos : ∀ p ∈ packs, 0 < p.amount)
    (hsort : List.Sorted packDesc packs) (hR : 0 ≤ R) :
    (orderBeforeMerge packs R).requestedItems = R ∧
    (orderBeforeMerge packs R).overpackedItems
      = (orderBeforeMerge packs R).totalItems - R ∧
    (orderBeforeMerge packs R).totalItems
      = linesTotal (orderBeforeMerge packs R).packs ∧
    R ≤ (orderBeforeMerge packs R).totalItems ∧
    (∀ p ∈ packs, (orderBeforeMerge packs R).overpackedItems < p.amount) := by
  obtain ⟨ha1, ha2, ha3, ha4, ha5, ha6, new, hb1, hb2, hb3, hb4⟩ :=
    ufp_main packs R (initOrder R) hpos hR
  set r := useFullPacksAux packs R (initOrder R) with hr
  have hlast : packs.getLast? = some (packs.getLast hne) :=
    List.getLast?_eq_getLast packs hne
  have hlmem : packs.getLast hne ∈ packs := List.getLast_mem hne
  have hlpos : 0 < (packs.getLast hne).amount := hpos _ hlmem
  have hlmin : ∀ p ∈ packs, (packs.getLast hne).amount ≤ p.amount :=
    sorted_getLast_min hsort hne
  simp only [initOrder] at ha1 ha2 ha6 hb1
  have husef : useFullPacks packs (initOrder R) = r := rfl
  by_cases hrem : r.1 ≤ 0
  · have hobm : orderBeforeMerge packs R =
        { r.2 with overpackedItems := r.2.totalItems - R } := by
      simp only [orderBeforeMerge, husef, addPackForRemainingItems, if_pos hrem]
    rw [hobm]
    have hrem0 : r.1 = 0 := le_antisymm hrem ha3
    refine ⟨ha1, rfl, ?_, by simp only []; omega, ?_⟩
    · simp only []
      rw [hb1, linesTotal_append]
      simp only [linesTotal_nil, zero_add]
      omega
    · intro p hp
      have := hpos p hp
      simp only []
      omega
  · have hobm : orderBeforeMerge packs R =
        { r.2 with
          packs := r.2.packs ++ [⟨1, packs.getLast hne⟩],
          totalItems := r.2.totalItems + (packs.getLast hne).amount,
          overpackedItems :=
            r.2.totalItems + (packs.getLast hne).amount - R } := by
      simp only [orderBeforeMerge, husef, addPackForRemainingItems,
        if_neg hrem, hlast]
    rw [hobm]
    have hremlt : r.1 < (packs.getLast hne).amount := ha5 _ hlmem
    refine ⟨ha1, rfl, ?_, by simp only []; omega, ?_⟩
    · simp only []
      rw [hb1, linesTotal_append, linesTotal_append]
      simp only [linesTotal_nil, zero_add, linesTotal_cons]
      omega
    · intro p hp
      have := hlmin p hp
      simp only []
      omega

/-! ### Characterisation of the `sizeGroups` map -/

/-- Lookup in the association list modelling the Go map. -/
def glookup (g : List (Int × Int)) (a : Int) : Option Int :=
  (g.find? (fun e => decide (e.1 = a))).map Prod.snd

theorem glookup_nil (a : Int) : glookup [] a = none := rfl

theorem glookup_cons (s c : Int) (g : List (Int × Int)) (a : Int) :
    glookup ((s, c) :: g) a = if s = a then some c else glookup g a := by
  by_cases h : s = a
  · simp [glookup, List.find?_cons, h]
  · simp [glookup, List.find?_cons, h]

theorem addToGroups_glookup (g : List (Int × Int)) (s q a : Int) :
    glookup (addToGroups g s q) a =
      if a = s then some ((glookup g s).getD 0 + q) else glookup g a := by
  induction g with
  | nil =>
    by_cases h : a = s
    · subst h
      simp [addToGroups, glookup_cons, glookup_nil]
    · simp [addToGroups, glookup_cons, glookup_nil, h, Ne.symm h]
  | cons e0 g ih =>
    obtain ⟨s0, c0⟩ := e0
    by_cases h0 : s0 = s
    · subst h0
      by_cases h : a = s0
      · subst h
        simp [addToGroups, glookup_cons]
      · simp [addToGroups, glookup_cons, h, Ne.symm h]
    · by_cases h2 : s0 = a
      · subst h2
        have ha : ¬s0 = s := h0
        simp [addToGroups, glookup_cons, h0, ha, ih]
      · simp [addToGroups, glookup_cons, h0, h2, ih]

theorem addToGroups_keys (g : List (Int × Int)) (s q : Int) :
    (addToGroups g s q).map Prod.fst =
      if s ∈ g.map Prod.fst then g.map Prod.fst
      else g.map Prod.fst ++ [s] := by
  induction g with
  | nil => simp [addToGroups]
  | cons e0 g ih =>
    obtain ⟨s0, c0⟩ := e0
    by_cases h0 : s0 = s
    · subst h0
      simp [addToGroups]
    · by_cases h : s ∈ g.map Prod.fst
      · simp [addToGroups, h0, ih, h, List.mem_cons, Ne.symm h0]
      · simp [addToGroups, h0, ih, h, List.mem_cons, Ne.symm h0]

theorem glookup_isSome_iff {g : List (Int × Int)} (a : Int) :
    (glookup g a).isSome ↔ a ∈ g.map Prod.fst := by
  induction g with
  | nil => simp [glookup_nil]
  | cons e0 g ih =>
    obtain ⟨s0, c0⟩ := e0
    rw [glookup_cons]
    by_cases h : s0 = a
    · subst h; simp
    · simp [h, ih, Ne.symm h]

theorem mem_iff_glookup {g : List (Int × Int)}
    (hnd : (g.map Prod.fst).Nodup) (e : Int × Int) :
    e ∈ g ↔ glookup g e.1 = some e.2 := by
  obtain ⟨e1, e2⟩ := e
  induction g with
  | nil => simp [glookup_nil]
  | cons e0 g ih =>
    obtain ⟨s0, c0⟩ := e0
    have hnd2 : (s0 :: g.map Prod.fst).Nodup := by simpa using hnd
    have hnd' : (g.map Prod.fst).Nodup := (List.nodup_cons.1 hnd2).2
    have hs0 : s0 ∉ g.map Prod.fst := (List.nodup_cons.1 hnd2).1
    rw [glookup_cons]
    by_cases h : s0 = e1
    · subst h
      rw [if_pos rfl]
      constructor
      · intro hm
        rcases List.mem_cons.1 hm with h1 | h1
        · have : e2 = c0 := by
            have := congrArg Prod.snd h1
            simpa using this
          simp [this]
        · exact absurd (by simpa using List.mem_map_of_mem Prod.fst h1) hs0
      · intro hm
        have : c0 = e2 := by simpa using hm
        simp [this]
    · rw [if_neg h]
      have hne : ((e1, e2) : Int × Int) ≠ (s0, c0) := by
        intro hc
        exact h (by simpa using (congrArg Prod.fst hc).symm)
      rw [List.mem_cons]
      simp only [hne, false_or]
      exact ih hnd'

theorem linesOf_eq_nil {a : Int} {l : List OrderPack}
    (h : a ∉ lineSizes l) : linesOf a l = [] := by
  induction l with
  | nil => rfl
  | cons p rest ih =>
    rw [linesOf_cons, if_neg (fun hc => h (by simp [lineSizes, hc]))]
    exact ih (fun hc => h (by simp [lineSizes] at hc ⊢; tauto))

theorem qsum_eq_zero {a : Int} {l : List OrderPack}
    (h : a ∉ lineSizes l) : qsum a l = 0 := by
  rw [qsum, linesOf_eq_nil h]
  rfl

/-- Invariant carried through the fold that builds the group map. -/
def GroupsOK (g : List (Int × Int)) (pref : List OrderPack) : Prop :=
  (g.map Prod.fst).Nodup ∧
  ∀ a, glookup g a =
    if a ∈ lineSizes pref then some (qsum a pref) else none

theorem addToGroups_ok {g : List (Int × Int)} {pref : List OrderPack}
    (hok : GroupsOK g pref) (p : OrderPack) :
    GroupsOK (addToGroups g p.pack.amount p.quantity) (pref ++ [p]) := by
  obtain ⟨hnd, hlk⟩ := hok
  have hsz : lineSizes (pref ++ [p]) = lineSizes pref ++ [p.pack.amount] := by
    simp [lineSizes]
  constructor
  · rw [addToGroups_keys]
    by_cases h : p.pack.amount ∈ g.map Prod.fst
    · rw [if_pos h]; exact hnd
    · rw [if_neg h]
      refine List.Nodup.append hnd (by simp) ?_
      intro a ha hb
      simp only [List.mem_singleton] at hb
      subst hb
      exact h ha
  · intro a
    have hq : qsum a (pref ++ [p]) =
        qsum a pref + (if p.pack.amount = a then p.quantity else 0) := by
      rw [qsum_append]
      congr 1
      rw [qsum_cons]
      simp [qsum, linesOf]
    rw [addToGroups_glookup]
    by_cases h : a = p.pack.amount
    · subst h
      rw [if_pos rfl, hlk, hsz, hq]
      by_cases h2 : p.pack.amount ∈ lineSizes pref
      · rw [if_pos h2, if_pos (by simp), if_pos rfl]
        simp
      · rw [if_neg h2, if_pos (by simp), if_pos rfl, qsum_eq_zero h2]
        simp
    · rw [if_neg h, hlk, hsz]
      by_cases h2 : a ∈ lineSizes pref
      · rw [if_pos h2, if_pos (by simp [h2]), hq,
          if_neg (fun hc => h hc.symm)]
        simp
      · rw [if_neg h2, if_neg (by
          simp only [List.mem_append, List.mem_singleton]
          push_neg
          exact ⟨h2, h⟩)]

theorem sizeGroups_ok (lines : List OrderPack) :
    GroupsOK (sizeGroups lines) lines := by
  have main : ∀ (rest : List OrderPack) (g : List (Int × Int))
      (pref : List OrderPack), GroupsOK g pref →
      GroupsOK (rest.foldl (fun g p => addToGroups g p.pack.amount p.quantity) g)
        (pref ++ rest) := by
    intro rest
    induction rest with
    | nil => intro g pref h; simpa using h
    | cons p rest ih =>
      intro g pref h
      have := ih (addToGroups g p.pack.amount p.quantity) (pref ++ [p])
        (addToGroups_ok h p)
      simpa [List.append_assoc] using this
  have base : GroupsOK [] [] := by
    constructor
    · simp
    · intro a
      simp [glookup_nil, lineSizes]
  simpa using main lines [] [] base

theorem sizeGroups_mem {lines : List OrderPack} (e : Int × Int) :
    e ∈ sizeGroups lines ↔
      (e.1 ∈ lineSizes lines ∧ e.2 = qsum e.1 lines) := by
  obtain ⟨hnd, hlk⟩ := sizeGroups_ok lines
  rw [mem_iff_glookup hnd, hlk]
  by_cases h : e.1 ∈ lineSizes lines
  · simp [h, eq_comm]
  · simp [h]

theorem sizeGroups_mem_of_line {lines : List OrderPack} {p : OrderPack}
    (hp : p ∈ lines) :
    (p.pack.amount, qsum p.pack.amount lines) ∈ sizeGroups lines :=
  (sizeGroups_mem _).2 ⟨by simp [lineSizes]; exact ⟨p, hp, rfl⟩, rfl⟩

/-! ### Facts about the removal loop of `mergePack` -/

theorem linesOf_head_amount {a : Int} {l : List OrderPack} {p : OrderPack}
    {rest : List OrderPack} (h : linesOf a l = p :: rest) :
    p.pack.amount = a := by
  have hm : p ∈ linesOf a l := by rw [h]; simp
  have := List.of_mem_filter hm
  simpa using this

theorem linesOf_split {a : Int} {l : List OrderPack} {p : OrderPack}
    {ps : List OrderPack} (h : linesOf a l = p :: ps) :
    ∃ l1 l2, l = l1 ++ p :: l2 ∧ linesOf a l1 = [] ∧ linesOf a l2 = ps := by
  induction l with
  | nil => simp [linesOf] at h
  | cons x rest ih =>
    rw [linesOf_cons] at h
    by_cases hx : x.pack.amount = a
    · rw [if_pos hx] at h
      injection h with h1 h2
      exact ⟨[], rest, by simp [h1], by simp [linesOf], h2⟩
    · rw [if_neg hx] at h
      obtain ⟨l1, l2, he, hl1, hl2⟩ := ih h
      exact ⟨x :: l1, l2, by simp [he],
        by rw [linesOf_cons, if_neg hx]; exact hl1, hl2⟩

theorem mpr_noS {S : Int} {l : List OrderPack} (h : linesOf S l = []) :
    ∀ rtr, mergePackRemove l S rtr = l := by
  induction l with
  | nil => intro rtr; rfl
  | cons p rest ih =>
    intro rtr
    rw [linesOf_cons] at h
    by_cases hp : p.pack.amount = S
    · rw [if_pos hp] at h; simp at h
    · rw [if_neg hp] at h
      rw [mergePackRemove, if_neg hp, ih h]

theorem mpr_append_noS {S : Int} {l1 : List OrderPack}
    (h : linesOf S l1 = []) (l2 : List OrderPack) (rtr : Int) :
    mergePackRemove (l1 ++ l2) S rtr = l1 ++ mergePackRemove l2 S rtr := by
  induction l1 with
  | nil => simp
  | cons p rest ih =>
    rw [linesOf_cons] at h
    by_cases hp : p.pack.amount = S
    · rw [if_pos hp] at h; simp at h
    · rw [if_neg hp] at h
      rw [List.cons_append, mergePackRemove, if_neg hp, ih h, List.cons_append]

theorem mpr_qpos {S : Int} {l : List OrderPack}
    (hq : ∀ p ∈ l, 0 < p.quantity) :
    ∀ rtr, ∀ p ∈ mergePackRemove l S rtr, 0 < p.quantity := by
  induction l with
  | nil => intro rtr p hp; simp [mergePackRemove] at hp
  | cons x rest ih =>
    intro rtr p hp
    have hxq := hq x (by simp)
    have hrest : ∀ p ∈ rest, 0 < p.quantity := fun p hp => hq p (by simp [hp])
    rw [mergePackRemove] at hp
    by_cases hx : x.pack.amount = S
    · rw [if_pos hx] at hp
      by_cases hlt : rtr < x.quantity
      · rw [if_pos hlt] at hp
        rcases List.mem_cons.1 hp with h | h
        · subst h; simp; omega
        · exact ih hrest _ p h
      · rw [if_neg hlt] at hp
        exact ih hrest _ p hp
    · rw [if_neg hx] at hp
      rcases List.mem_cons.1 hp with h | h
      · subst h; exact hxq
      · exact ih hrest _ p h

theorem mpr_packmem {S : Int} {l : List OrderPack} :
    ∀ rtr, ∀ p ∈ mergePackRemove l S rtr, p.pack ∈ l.map OrderPack.pack := by
  induction l with
  | nil => intro rtr p hp; simp [mergePackRemove] at hp
  | cons x rest ih =>
    intro rtr p hp
    rw [mergePackRemove] at hp
    by_cases hx : x.pack.amount = S
    · rw [if_pos hx] at hp
      by_cases hlt : rtr < x.quantity
      · rw [if_pos hlt] at hp
        rcases List.mem_cons.1 hp with h | h
        · subst h; simp
        · simp only [List.map_cons, List.mem_cons]
          exact Or.inr (ih _ p h)
      · rw [if_neg hlt] at hp
        simp only [List.map_cons, List.mem_cons]
        exact Or.inr (ih _ p hp)
    · rw [if_neg hx] at hp
      rcases List.mem_cons.1 hp with h | h
      · subst h; simp
      · simp only [List.map_cons, List.mem_cons]
        exact Or.inr (ih _ p h)

theorem mpr_linesOf_other {S a : Int} (hne : a ≠ S) {l : List OrderPack} :
    ∀ rtr, linesOf a (mergePackRemove l S rtr) = linesOf a l := by
  induction l with
  | nil => intro rtr; rfl
  | cons x rest ih =>
    intro rtr
    rw [mergePackRemove]
    by_cases hx : x.pack.amount = S
    · by_cases hlt : rtr < x.quantity
      · rw [if_pos hx, if_pos hlt, linesOf_cons, linesOf_cons,
          if_neg (by simp; omega), if_neg (by omega)]
        exact ih _
      · rw [if_pos hx, if_neg hlt, linesOf_cons, if_neg (by omega)]
        exact ih _
    · by_cases ha : x.pack.amount = a
      · rw [if_neg hx, linesOf_cons, linesOf_cons, if_pos ha, if_pos ha, ih _]
      · rw [if_neg hx, linesOf_cons, linesOf_cons, if_neg ha, if_neg ha, ih _]

theorem mpr_clean_single {S m : Int} {l : List OrderPack} {p1 : OrderPack}
    (hl : linesOf S l = [p1]) (hm : 0 < m) (hq : m ≤ p1.quantity) :
    linesTotal (mergePackRemove l S m) = linesTotal l - m * S ∧
    (linesOf S (mergePackRemove l S m)).length ≤ 1 := by
  have hpa : p1.pack.amount = S := linesOf_head_amount hl
  obtain ⟨l1, l2, he, hl1, hl2⟩ := linesOf_split hl
  subst he
  rw [mpr_append_noS hl1]
  by_cases hlt : m < p1.quantity
  · rw [show mergePackRemove (p1 :: l2) S m =
      ⟨p1.quantity - m, p1.pack⟩ ::
        mergePackRemove l2 S (m - min m (p1.quantity - m)) by
      rw [mergePackRemove, if_pos hpa, if_pos hlt]]
    rw [mpr_noS hl2]
    constructor
    · rw [linesTotal_append, linesTotal_append, linesTotal_cons,
        linesTotal_cons]
      simp only [hpa]
      ring
    · rw [linesOf_append, linesOf_cons, if_pos hpa, hl1, hl2]
      simp
  · have hqm : p1.quantity = m := by omega
    rw [show mergePackRemove (p1 :: l2) S m =
      mergePackRemove l2 S (m - min m p1.quantity) by
      rw [mergePackRemove, if_pos hpa, if_neg hlt]]
    rw [mpr_noS hl2]
    constructor
    · rw [linesTotal_append, linesTotal_append, linesTotal_cons]
      rw [hqm, hpa]
      ring
    · rw [linesOf_append, hl1, hl2]
      simp

theorem mpr_clean_double {S m : Int} {l : List OrderPack} {p1 p2 : OrderPack}
    (hl : linesOf S l = [p1, p2]) (hm : 0 < m) (hq1 : p1.quantity < m)
    (hq12 : m ≤ p1.quantity + p2.quantity)
    (hq1p : 0 < p1.quantity) :
    linesTotal (mergePackRemove l S m) = linesTotal l - m * S ∧
    (linesOf S (mergePackRemove l S m)).length ≤ 1 := by
  have hpa1 : p1.pack.amount = S := linesOf_head_amount hl
  obtain ⟨l1, l2', he, hl1, hl2'⟩ := linesOf_split hl
  have hpa2 : p2.pack.amount = S := linesOf_head_amount hl2'
  obtain ⟨l2, l3, he2, hl2, hl3⟩ := linesOf_split hl2'
  subst he2
  subst he
  rw [mpr_append_noS hl1]
  have hstep1 : mergePackRemove (p1 :: (l2 ++ p2 :: l3)) S m =
      mergePackRemove (l2 ++ p2 :: l3) S (m - min m p1.quantity) := by
    rw [mergePackRemove, if_pos hpa1, if_neg (by omega)]
  have hmin1 : m - min m p1.quantity = m - p1.quantity := by omega
  rw [hstep1, hmin1, mpr_append_noS hl2]
  by_cases hlt : m - p1.quantity < p2.quantity
  · rw [show mergePackRemove (p2 :: l3) S (m - p1.quantity) =
      ⟨p2.quantity - (m - p1.quantity), p2.pack⟩ ::
        mergePackRemove l3 S
          ((m - p1.quantity) -
            min (m - p1.quantity) (p2.quantity - (m - p1.quantity))) by
      rw [mergePackRemove, if_pos hpa2, if_pos hlt]]
    rw [mpr_noS hl3]
    constructor
    · simp only [linesTotal_append, linesTotal_cons, hpa1, hpa2]
      ring
    · rw [linesOf_append, linesOf_append, linesOf_cons, if_pos hpa2,
        hl1, hl2, hl3]
      simp
  · have hq2 : p2.quantity = m - p1.quantity := by omega
    rw [show mergePackRemove (p2 :: l3) S (m - p1.quantity) =
      mergePackRemove l3 S
        ((m - p1.quantity) - min (m - p1.quantity) p2.quantity) by
      rw [mergePackRemove, if_pos hpa2, if_neg hlt]]
    rw [mpr_noS hl3]
    constructor
    · simp only [linesTotal_append, linesTotal_cons, hpa1, hpa2]
      rw [hq2]
      ring
    · rw [linesOf_append, linesOf_append, hl1, hl2, hl3]
      simp

theorem mpr_filter_lt_of_ge {S t : Int} (h : t ≤ S) :
    ∀ (l : List OrderPack) (rtr : Int),
    (mergePackRemove l S rtr).filter (fun p => p.pack.amount < t)
      = l.filter (fun p => p.pack.amount < t) := by
  intro l
  induction l with
  | nil => intro rtr; rfl
  | cons x rest ih =>
    intro rtr
    rw [mergePackRemove]
    by_cases hx : x.pack.amount = S
    · by_cases hlt : rtr < x.quantity
      · rw [if_pos hx, if_pos hlt, List.filter_cons, List.filter_cons]
        rw [if_neg (by simp; omega), if_neg (by simp; omega)]
        exact ih _
      · rw [if_pos hx, if_neg hlt, List.filter_cons, if_neg (by simp; omega)]
        exact ih _
    · rw [if_neg hx, List.filter_cons, List.filter_cons]
      by_cases ha : x.pack.amount < t
      · rw [if_pos (by simpa using ha), if_pos (by simpa using ha), ih _]
      · rw [if_neg (by simpa using ha), if_neg (by simpa using ha), ih _]

theorem mpr_filter_lt_of_lt {S t : Int} (h : S < t) :
    ∀ (l : List OrderPack) (rtr : Int),
    (mergePackRemove l S rtr).filter (fun p => p.pack.amount < t)
      = mergePackRemove (l.filter (fun p => p.pack.amount < t)) S rtr := by
  intro l
  induction l with
  | nil => intro rtr; rfl
  | cons x rest ih =>
    intro rtr
    by_cases hx : x.pack.amount = S
    · by_cases hlt : rtr < x.quantity
      · rw [mergePackRemove, if_pos hx, if_pos hlt, List.filter_cons,
          List.filter_cons, if_pos (by simp; omega), if_pos (by simp; omega),
          mergePackRemove, if_pos hx, if_pos hlt, ih _]
      · rw [mergePackRemove, if_pos hx, if_neg hlt, List.filter_cons,
          if_pos (by simp; omega), mergePackRemove, if_pos hx, if_neg hlt,
          ih _]
    · rw [mergePackRemove, if_neg hx, List.filter_cons, List.filter_cons]
      by_cases ha : x.pack.amount < t
      · rw [if_pos (by simpa using ha), if_pos (by simpa using ha),
          mergePackRemove, if_neg hx, ih _]
      · rw [if_neg (by simpa using ha), if_neg (by simpa using ha), ih _]

theorem linesOf_filter_lt {S t : Int} (h : S < t) (l : List OrderPack) :
    linesOf S (l.filter (fun p => p.pack.amount < t)) = linesOf S l := by
  induction l with
  | nil => rfl
  | cons x rest ih =>
    rw [List.filter_cons]
    by_cases hx : x.pack.amount = S
    · rw [if_pos (by simp; omega), linesOf_cons, linesOf_cons, if_pos hx,
        if_pos hx, ih]
    · by_cases ha : x.pack.amount < t
      · rw [if_pos (by simpa using ha), linesOf_cons, linesOf_cons,
          if_neg hx, if_neg hx, ih]
      · rw [if_neg (by simpa using ha), linesOf_cons, if_neg hx, ih]

/-! ### Facts about `bumpOrAppend` -/

theorem bump_total (l : List OrderPack) (T : Int) :
    linesTotal (bumpOrAppend l T) = linesTotal l + T := by
  induction l with
  | nil => simp [bumpOrAppend, linesTotal]
  | cons x rest ih =>
    rw [bumpOrAppend]
    by_cases hx : x.pack.amount = T
    · rw [if_pos hx, linesTotal_cons, linesTotal_cons]
      simp only [hx]
      ring
    · rw [if_neg hx, linesTotal_cons, linesTotal_cons, ih]
      ring

theorem bump_linesOf_other {T a : Int} (hne : a ≠ T) (l : List OrderPack) :
    linesOf a (bumpOrAppend l T) = linesOf a l := by
  induction l with
  | nil => simp [bumpOrAppend, linesOf_cons, linesOf_nil, Ne.symm hne]
  | cons x rest ih =>
    rw [bumpOrAppend]
    by_cases hx : x.pack.amount = T
    · rw [if_pos hx, linesOf_cons, linesOf_cons]
      rw [if_neg (by simp; omega), if_neg (by omega)]
    · rw [if_neg hx, linesOf_cons, linesOf_cons, ih]

theorem bump_linesOf_len (l : List OrderPack) (T : Int) :
    (linesOf T (bumpOrAppend l T)).length ≤
      max 1 (linesOf T l).length := by
  induction l with
  | nil => simp [bumpOrAppend, linesOf_cons, linesOf_nil]
  | cons x rest ih =>
    rw [bumpOrAppend]
    by_cases hx : x.pack.amount = T
    · rw [if_pos hx, linesOf_cons, linesOf_cons, if_pos (by simpa using hx),
        if_pos hx]
      simp only [List.length_cons]
      omega
    · rw [if_neg hx, linesOf_cons, linesOf_cons, if_neg hx, if_neg hx]
      exact ih

theorem bump_qpos {l : List OrderPack} (hq : ∀ p ∈ l, 0 < p.quantity)
    (T : Int) : ∀ p ∈ bumpOrAppend l T, 0 < p.quantity := by
  induction l with
  | nil =>
    intro p hp
    simp only [bumpOrAppend, List.mem_singleton] at hp
    subst hp; simp
  | cons x rest ih =>
    intro p hp
    have hxq := hq x (by simp)
    have hrest : ∀ p ∈ rest, 0 < p.quantity := fun p hp => hq p (by simp [hp])
    rw [bumpOrAppend] at hp
    by_cases hx : x.pack.amount = T
    · rw [if_pos hx] at hp
      rcases List.mem_cons.1 hp with h | h
      · subst h; simp; omega
      · exact hrest p h
    · rw [if_neg hx] at hp
      rcases List.mem_cons.1 hp with h | h
      · subst h; exact hxq
      · exact ih hrest p h

theorem bump_amounts {l : List OrderPack} {A : List Int}
    (hs : ∀ p ∈ l, p.pack.amount ∈ A) {T : Int} (hT : T ∈ A) :
    ∀ p ∈ bumpOrAppend l T, p.pack.amount ∈ A := by
  induction l with
  | nil =>
    intro p hp
    simp only [bumpOrAppend, List.mem_singleton] at hp
    subst hp; simpa using hT
  | cons x rest ih =>
    intro p hp
    have hxs := hs x (by simp)
    have hrest : ∀ p ∈ rest, p.pack.amount ∈ A := fun p hp => hs p (by simp [hp])
    rw [bumpOrAppend] at hp
    by_cases hx : x.pack.amount = T
    · rw [if_pos hx] at hp
      rcases List.mem_cons.1 hp with h | h
      · subst h; simpa using hxs
      · exact hrest p h
    · rw [if_neg hx] at hp
      rcases List.mem_cons.1 hp with h | h
      · subst h; exact hxs
      · exact ih hrest p h

theorem bump_filter_lt_of_ge {T t : Int} (h : t ≤ T) (l : List OrderPack) :
    (bumpOrAppend l T).filter (fun p => p.pack.amount < t)
      = l.filter (fun p => p.pack.amount < t) := by
  induction l with
  | nil => simp [bumpOrAppend, List.filter_cons]; omega
  | cons x rest ih =>
    rw [bumpOrAppend]
    by_cases hx : x.pack.amount = T
    · rw [if_pos hx, List.filter_cons, List.filter_cons,
        if_neg (by simp; omega), if_neg (by simp; omega)]
    · rw [if_neg hx, List.filter_cons, List.filter_cons]
      by_cases ha : x.pack.amount < t
      · rw [if_pos (by simpa using ha), if_pos (by simpa using ha), ih]
      · rw [if_neg (by simpa using ha), if_neg (by simpa using ha), ih]

theorem bump_filter_lt_of_lt {T t : Int} (h : T < t) (l : List OrderPack) :
    (bumpOrAppend l T).filter (fun p => p.pack.amount < t)
      = bumpOrAppend (l.filter (fun p => p.pack.amount < t)) T := by
  induction l with
  | nil => simp [bumpOrAppend, List.filter_cons]; omega
  | cons x rest ih =>
    by_cases hx : x.pack.amount = T
    · rw [bumpOrAppend, if_pos hx, List.filter_cons, List.filter_cons,
        if_pos (by simp; omega), if_pos (by simp; omega), bumpOrAppend,
        if_pos hx]
    · rw [bumpOrAppend, if_neg hx, List.filter_cons, List.filter_cons]
      by_cases ha : x.pack.amount < t
      · rw [if_pos (by simpa using ha), if_pos (by simpa using ha), ih,
          bumpOrAppend, if_neg hx]
      · rw [if_neg (by simpa using ha), if_neg (by simpa using ha), ih]

/-! ### Small utilities about lines and sums -/

theorem mem_of_mem_linesOf {a : Int} {p : OrderPack} {l : List OrderPack}
    (h : p ∈ linesOf a l) : p ∈ l :=
  List.mem_of_mem_filter h

theorem linesOf_ne_nil {a : Int} {l : List OrderPack}
    (h : a ∈ lineSizes l) : ∃ p ps, linesOf a l = p :: ps := by
  obtain ⟨p, hp, hpa⟩ := List.mem_map.1 h
  have : p ∈ linesOf a l := List.mem_filter.2 ⟨hp, by simpa using hpa⟩
  cases hlo : linesOf a l with
  | nil => rw [hlo] at this; simp at this
  | cons x xs => exact ⟨x, xs, rfl⟩

theorem linesTotal_filter_le {l : List OrderPack}
    (h : ∀ p ∈ l, 0 ≤ p.quantity * p.pack.amount) (Q : OrderPack → Bool) :
    linesTotal (l.filter Q) ≤ linesTotal l := by
  induction l with
  | nil => simp
  | cons x rest ih =>
    have hx := h x (by simp)
    have hrest := ih (fun p hp => h p (by simp [hp]))
    rw [List.filter_cons, linesTotal_cons]
    by_cases hq : Q x
    · rw [if_pos hq, linesTotal_cons]; omega
    · rw [if_neg hq]; omega

theorem linesTotal_two_linesOf {S1 S2 : Int} (hne : S1 ≠ S2)
    {l : List OrderPack} (h : ∀ p ∈ l, 0 ≤ p.quantity * p.pack.amount) :
    linesTotal (linesOf S1 l) + linesTotal (linesOf S2 l) ≤ linesTotal l := by
  induction l with
  | nil => simp [linesOf_nil, linesTotal_nil]
  | cons x rest ih =>
    have hx := h x (by simp)
    have hrest := ih (fun p hp => h p (by simp [hp]))
    rw [linesOf_cons, linesOf_cons, linesTotal_cons]
    by_cases h1 : x.pack.amount = S1
    · rw [if_pos h1, if_neg (by omega), linesTotal_cons]
      omega
    · by_cases h2 : x.pack.amount = S2
      · rw [if_neg h1, if_pos h2, linesTotal_cons]
        omega
      · rw [if_neg h1, if_neg h2]
        omega

theorem qsum_ge_of_mem {p : OrderPack} {l : List OrderPack} (hp : p ∈ l)
    (hq : ∀ x ∈ l, 0 ≤ x.quantity) :
    p.quantity ≤ qsum p.pack.amount l := by
  have hpl : p ∈ linesOf p.pack.amount l :=
    List.mem_filter.2 ⟨hp, by simp⟩
  have : p.quantity ∈ (linesOf p.pack.amount l).map (fun x => x.quantity) :=
    List.mem_map_of_mem _ hpl
  refine List.single_le_sum ?_ _ this
  intro x hx
  obtain ⟨y, hy, hyx⟩ := List.mem_map.1 hx
  rw [← hyx]
  exact hq y (mem_of_mem_linesOf hy)

theorem vBelow_ge_qsum {S T : Int} (hST : S < T) {l : List OrderPack}
    (h : ∀ p ∈ l, 0 ≤ p.quantity * p.pack.amount) :
    qsum S l * S ≤ vBelow T l := by
  have h1 : linesOf S (l.filter (fun p => p.pack.amount < T)) = linesOf S l :=
    linesOf_filter_lt hST l
  have h2 : ∀ p ∈ l.filter (fun p => p.pack.amount < T),
      0 ≤ p.quantity * p.pack.amount :=
    fun p hp => h p (List.mem_of_mem_filter hp)
  calc qsum S l * S = linesTotal (linesOf S l) := (linesTotal_linesOf S l).symm
    _ = linesTotal (linesOf S (l.filter (fun p => p.pack.amount < T))) := by
        rw [h1]
    _ ≤ linesTotal (l.filter (fun p => p.pack.amount < T)) := by
        rw [linesOf]
        exact linesTotal_filter_le h2 _
    _ = vBelow T l := rfl

theorem vBelow_ge_qsum_two {S1 S2 T : Int} (hne : S1 ≠ S2) (h1T : S1 < T)
    (h2T : S2 < T) {l : List OrderPack}
    (h : ∀ p ∈ l, 0 ≤ p.quantity * p.pack.amount) :
    qsum S1 l * S1 + qsum S2 l * S2 ≤ vBelow T l := by
  have e1 : linesOf S1 (l.filter (fun p => p.pack.amount < T)) = linesOf S1 l :=
    linesOf_filter_lt h1T l
  have e2 : linesOf S2 (l.filter (fun p => p.pack.amount < T)) = linesOf S2 l :=
    linesOf_filter_lt h2T l
  have h2 : ∀ p ∈ l.filter (fun p => p.pack.amount < T),
      0 ≤ p.quantity * p.pack.amount :=
    fun p hp => h p (List.mem_of_mem_filter hp)
  calc qsum S1 l * S1 + qsum S2 l * S2
      = linesTotal (linesOf S1 l) + linesTotal (linesOf S2 l) := by
        rw [linesTotal_linesOf, linesTotal_linesOf]
    _ = linesTotal (linesOf S1 (l.filter (fun p => p.pack.amount < T)))
        + linesTotal (linesOf S2 (l.filter (fun p => p.pack.amount < T))) := by
        rw [e1, e2]
    _ ≤ linesTotal (l.filter (fun p => p.pack.amount < T)) :=
        linesTotal_two_linesOf hne h2
    _ = vBelow T l := rfl

/-! ### The merge-scan: soundness and completeness -/

theorem fssm_some {avail : List Pack} {groups : List (Int × Int)} {S T : Int}
    (h : findSameSizeMerge avail groups = some (S, T)) :
    T ∈ amountsOf avail ∧
    ∃ c, (S, c) ∈ groups ∧ S < T ∧ goMod T S = 0 ∧ goDiv T S ≤ c := by
  induction avail with
  | nil => simp [findSameSizeMerge] at h
  | cons t rest ih =>
    rw [findSameSizeMerge] at h
    cases hf : groups.find? (sameSizeQual t.amount) with
    | none =>
      rw [hf] at h
      obtain ⟨hT, hc⟩ := ih h
      exact ⟨by simp [amountsOf] at hT ⊢; tauto, hc⟩
    | some g =>
      rw [hf] at h
      injection h with h1
      have hS : g.1 = S := congrArg Prod.fst h1
      have hT : t.amount = T := congrArg Prod.snd h1
      have hqual := List.find?_some hf
      have hmem := List.mem_of_find?_eq_some hf
      unfold sameSizeQual at hqual
      simp only [Bool.and_eq_true, decide_eq_true_eq] at hqual
      refine ⟨by simp [amountsOf, ← hT], g.2, ?_, ?_, ?_, ?_⟩
      · rw [← hS]; exact hmem
      · rw [← hS, ← hT]; exact hqual.1.1
      · rw [← hS, ← hT]; exact hqual.1.2
      · rw [← hS, ← hT]; exact hqual.2

theorem fssm_none_cons {t : Pack} {rest : List Pack}
    {groups : List (Int × Int)}
    (h : findSameSizeMerge (t :: rest) groups = none) :
    groups.find? (sameSizeQual t.amount) = none ∧
    findSameSizeMerge rest groups = none := by
  rw [findSameSizeMerge] at h
  cases hf : groups.find? (sameSizeQual t.amount) with
  | none => rw [hf] at h; exact ⟨rfl, h⟩
  | some g => rw [hf] at h; exact absurd h (by simp)

theorem fdsm_none_of_fssm_none {avail : List Pack} {lines : List OrderPack}
    (hq : ∀ p ∈ lines, 0 ≤ p.quantity)
    (h : findSameSizeMerge avail (sizeGroups lines) = none) :
    findDiffSizeMerge avail lines = none := by
  induction avail with
  | nil => rfl
  | cons t rest ih =>
    obtain ⟨hfind, hrest⟩ := fssm_none_cons h
    rw [findDiffSizeMerge]
    have hnone : lines.find? (diffSizeQual t.amount) = none := by
      rw [List.find?_eq_none]
      intro p hp hqual
      unfold diffSizeQual at hqual
      simp only [Bool.and_eq_true, decide_eq_true_eq] at hqual
      have hg : (p.pack.amount, qsum p.pack.amount lines) ∈ sizeGroups lines :=
        sizeGroups_mem_of_line hp
      have := List.find?_eq_none.1 hfind _ hg
      apply this
      unfold sameSizeQual
      simp only [Bool.and_eq_true, decide_eq_true_eq]
      refine ⟨⟨hqual.1.1, hqual.1.2⟩, ?_⟩
      exact le_trans hqual.2 (qsum_ge_of_mem hp hq)
    rw [hnone]
    exact ih hrest

/-! ### The consolidation invariant -/

/-- Invariant maintained over the order lines through the consolidation
loop.  `A` lists the catalog amounts and `m` is the smallest of them.  At
most one line exists per size except for the smallest size, which may carry
the extra residual line; the head quantity of a duplicated smallest-size
group is too small to fill any target alone; and the items held by lines
strictly below any catalog size `t` stay below `t + m`. -/
structure MergeInv (A : List Int) (m : Int) (lines : List OrderPack) : Prop where
  qpos : ∀ p ∈ lines, 0 < p.quantity
  sizesIn : ∀ p ∈ lines, p.pack.amount ∈ A
  single : ∀ a, a ≠ m → (linesOf a lines).length ≤ 1
  dlen : (linesOf m lines).length ≤ 2
  dbound : ∀ p1 p2 rest, linesOf m lines = p1 :: p2 :: rest →
    ∀ T ∈ A, m < T → p1.quantity * m < T
  vbound : ∀ t ∈ A, vBelow t lines < t + m

theorem inv_prod_nonneg {A : List Int} {m : Int} {lines : List OrderPack}
    (hApos : ∀ a ∈ A, 0 < a) (hinv : MergeInv A m lines) :
    ∀ p ∈ lines, 0 ≤ p.quantity * p.pack.amount :=
  fun p hp => mul_nonneg (le_of_lt (hinv.qpos p hp))
    (le_of_lt (hApos _ (hinv.sizesIn p hp)))

theorem merge_step {avail : List Pack} {m : Int} {lines : List OrderPack}
    {S T : Int}
    (hApos : ∀ a ∈ amountsOf avail, 0 < a)
    (hmmin : ∀ a ∈ amountsOf avail, m ≤ a)
    (hinv : MergeInv (amountsOf avail) m lines)
    (hf : findSameSizeMerge avail (sizeGroups lines) = some (S, T)) :
    MergeInv (amountsOf avail) m
      (bumpOrAppend (mergePackRemove lines S (goDiv T S)) T) ∧
    linesTotal (bumpOrAppend (mergePackRemove lines S (goDiv T S)) T)
      = linesTotal lines ∧
    (∀ t, vBelow t (bumpOrAppend (mergePackRemove lines S (goDiv T S)) T)
      ≤ vBelow t lines) ∧
    vBelow T (bumpOrAppend (mergePackRemove lines S (goDiv T S)) T) < m ∧
    T ∈ amountsOf avail ∧ T ≤ vBelow T lines := by
  obtain ⟨hT, c, hcg, hST, hmod, hdiv⟩ := fssm_some hf
  obtain ⟨hSsz, hcq⟩ := (sizeGroups_mem (S, c)).1 hcg
  simp only at hSsz hcq
  obtain ⟨p0, hp0, hp0a⟩ := List.mem_map.1 hSsz
  have hSA : S ∈ amountsOf avail := by
    rw [← hp0a]; exact hinv.sizesIn p0 hp0
  have hSpos : 0 < S := hApos S hSA
  have hTpos : 0 < T := hApos T hT
  have hmult : goDiv T S * S = T :=
    goDiv_mul_cancel (le_of_lt hTpos) hSpos hmod
  have hmqpos : 0 < goDiv T S := by nlinarith [hmult, hSpos, hTpos]
  have hprodpos := inv_prod_nonneg hApos hinv
  have hTm : m < T := lt_of_le_of_lt (hmmin S hSA) hST
  obtain ⟨p1, ps, hshape⟩ := linesOf_ne_nil hSsz
  have hcleanAt : ∀ X : List OrderPack, linesOf S X = linesOf S lines →
      linesTotal (mergePackRemove X S (goDiv T S))
        = linesTotal X - goDiv T S * S ∧
      (linesOf S (mergePackRemove X S (goDiv T S))).length ≤ 1 := by
    intro X hX
    cases ps with
    | nil =>
      have hq1 : qsum S lines = p1.quantity := by
        rw [qsum, hshape]; simp
      exact mpr_clean_single (by rw [hX, hshape]) hmqpos
        (by rw [← hq1, ← hcq]; exact hdiv)
    | cons p2 ps2 =>
      cases ps2 with
      | nil =>
        have hSm : S = m := by
          by_contra hne
          have := hinv.single S hne
          rw [hshape] at this
          simp at this
        have hq12 : qsum S lines = p1.quantity + p2.quantity := by
          rw [qsum, hshape]; simp
        have hb : p1.quantity * m < T := by
          refine hinv.dbound p1 p2 [] ?_ T hT hTm
          rw [← hSm]; exact hshape
        have hq1lt : p1.quantity < goDiv T S := by
          have hmm : goDiv T S * S = T := hmult
          rw [← hSm] at hb
          nlinarith [hb, hmm, hSpos]
        exact mpr_clean_double (by rw [hX, hshape]) hmqpos hq1lt
          (by rw [← hq12, ← hcq]; exact hdiv)
          (hinv.qpos p1 (mem_of_mem_linesOf (by rw [hshape]; simp)))
      | cons p3 ps3 =>
        exfalso
        by_cases hSm : S = m
        · have := hinv.dlen
          rw [← hSm, hshape] at this
          simp at this
        · have := hinv.single S hSm
          rw [hshape] at this
          simp at this
  have hclean := hcleanAt lines rfl
  have htot : linesTotal (bumpOrAppend (mergePackRemove lines S (goDiv T S)) T)
      = linesTotal lines := by
    rw [bump_total, hclean.1, hmult]
    ring
  have hvb : ∀ t,
      vBelow t (bumpOrAppend (mergePackRemove lines S (goDiv T S)) T)
        = vBelow t lines - (if S < t then T else 0)
          + (if T < t then T else 0) := by
    intro t
    by_cases hSt : S < t
    · have hcf := hcleanAt (lines.filter (fun p => p.pack.amount < t))
        (linesOf_filter_lt hSt lines)
      by_cases hTt : T < t
      · rw [if_pos hSt, if_pos hTt]
        show linesTotal _ = _
        rw [bump_filter_lt_of_lt hTt, bump_total,
          mpr_filter_lt_of_lt hSt, hcf.1, hmult]
        show vBelow t lines - T + T = _
        ring
      · rw [if_pos hSt, if_neg hTt]
        show linesTotal _ = _
        rw [bump_filter_lt_of_ge (by omega), mpr_filter_lt_of_lt hSt,
          hcf.1, hmult]
        show vBelow t lines - T = _
        ring
    · have hTt : ¬ T < t := by omega
      rw [if_neg hSt, if_neg hTt]
      show linesTotal _ = _
      rw [bump_filter_lt_of_ge (by omega), mpr_filter_lt_of_ge (by omega)]
      show vBelow t lines = _
      ring
  have hvmono : ∀ t,
      vBelow t (bumpOrAppend (mergePackRemove lines S (goDiv T S)) T)
        ≤ vBelow t lines := by
    intro t
    rw [hvb t]
    by_cases hSt : S < t
    · by_cases hTt : T < t
      · rw [if_pos hSt, if_pos hTt]; omega
      · rw [if_pos hSt, if_neg hTt]; omega
    · have hTt : ¬ T < t := by omega
      rw [if_neg hSt, if_neg hTt]; omega
  have hcross : T ≤ vBelow T lines := by
    have h1 : qsum S lines * S ≤ vBelow T lines := vBelow_ge_qsum hST hprodpos
    have h2 : goDiv T S * S ≤ qsum S lines * S := by
      have : goDiv T S ≤ qsum S lines := by rw [← hcq]; exact hdiv
      exact mul_le_mul_of_nonneg_right this (le_of_lt hSpos)
    omega
  have hvT : vBelow T (bumpOrAppend (mergePackRemove lines S (goDiv T S)) T)
      < m := by
    rw [hvb T, if_pos hST, if_neg (by omega)]
    have := hinv.vbound T hT
    omega
  have hrem_sizes : ∀ p ∈ mergePackRemove lines S (goDiv T S),
      p.pack.amount ∈ amountsOf avail := by
    intro p hp
    obtain ⟨p0', hp0', heq⟩ := List.mem_map.1 (mpr_packmem _ p hp)
    rw [← heq]
    exact hinv.sizesIn p0' hp0'
  refine ⟨?_, htot, hvmono, hvT, hT, hcross⟩
  constructor
  · exact bump_qpos (mpr_qpos hinv.qpos _) T
  · exact bump_amounts hrem_sizes hT
  · intro a hane
    by_cases haT : a = T
    · have h1 := bump_linesOf_len (mergePackRemove lines S (goDiv T S)) T
      have h2 : linesOf T (mergePackRemove lines S (goDiv T S))
          = linesOf T lines := mpr_linesOf_other (by omega) _
      have h3 := hinv.single T (by omega)
      rw [h2] at h1
      rw [haT]
      omega
    · rw [bump_linesOf_other haT]
      by_cases haS : a = S
      · subst haS
        exact hclean.2
      · rw [mpr_linesOf_other haS]
        exact hinv.single a hane
  · rw [bump_linesOf_other (by omega)]
    by_cases hmS : m = S
    · subst hmS
      exact le_trans hclean.2 (by omega)
    · rw [mpr_linesOf_other hmS]
      exact hinv.dlen
  · intro p1' p2' rest' hsh' T' hT' hmT'
    rw [bump_linesOf_other (by omega)] at hsh'
    by_cases hmS : m = S
    · subst hmS
      have := hclean.2
      rw [hsh'] at this
      simp at this
    · rw [mpr_linesOf_other hmS] at hsh'
      exact hinv.dbound p1' p2' rest' hsh' T' hT' hmT'
  · intro t ht
    exact lt_of_le_of_lt (hvmono t) (hinv.vbound t ht)

/-! ### Counting catalog sizes that can still absorb a merge -/

/-- Catalog sizes whose below-threshold value could still fill one pack of
that size; each same-size merge permanently consumes its target size. -/
def crossCount (avail : List Pack) (lines : List OrderPack) : Nat :=
  ((amountsOf avail).filter (fun t => decide (t ≤ vBelow t lines))).length

theorem filter_length_mono {l : List Int} {p q : Int → Bool}
    (himp : ∀ x ∈ l, q x = true → p x = true) :
    (l.filter q).length ≤ (l.filter p).length := by
  induction l with
  | nil => simp
  | cons x rest ih =>
    have hrest := ih (fun y hy => himp y (by simp [hy]))
    rw [List.filter_cons, List.filter_cons]
    by_cases hq : q x = true
    · rw [if_pos hq, if_pos (himp x (by simp) hq)]
      simpa using hrest
    · rw [if_neg (by simpa using hq)]
      by_cases hp : p x = true
      · rw [if_pos hp]
        exact le_trans hrest (by simp)
      · rw [if_neg (by simpa using hp)]
        exact hrest

theorem filter_length_lt {l : List Int} {p q : Int → Bool}
    (himp : ∀ x ∈ l, q x = true → p x = true)
    (hwit : ∃ x ∈ l, p x = true ∧ q x = false) :
    (l.filter q).length < (l.filter p).length := by
  induction l with
  | nil => obtain ⟨x, hx, _⟩ := hwit; simp at hx
  | cons y rest ih =>
    obtain ⟨x, hx, hpx, hqx⟩ := hwit
    have himp' : ∀ z ∈ rest, q z = true → p z = true :=
      fun z hz => himp z (by simp [hz])
    rw [List.filter_cons, List.filter_cons]
    rcases List.mem_cons.1 hx with hxy | hxr
    · subst hxy
      rw [if_pos hpx, if_neg (by simp [hqx])]
      have := filter_length_mono himp'
      simpa using Nat.lt_succ_of_le this
    · have hrest := ih himp' ⟨x, hxr, hpx, hqx⟩
      by_cases hq : q y = true
      · rw [if_pos hq, if_pos (himp y (by simp) hq)]
        simpa using hrest
      · rw [if_neg (by simpa using hq)]
        by_cases hp : p y = true
        · rw [if_pos hp]
          exact lt_of_lt_of_le hrest (by simp)
        · rw [if_neg (by simpa using hp)]
          exact hrest

theorem filter_length_lt_of_mem (l : List Int) (p : Int → Bool) {a : Int}
    (ha : a ∈ l) (hpa : p a = false) : (l.filter p).length < l.length := by
  induction l with
  | nil => simp at ha
  | cons y rest ih =>
    rw [List.filter_cons]
    rcases List.mem_cons.1 ha with hay | har
    · subst hay
      rw [if_neg (by simp [hpa])]
      have := List.length_filter_le p rest
      simp only [List.length_cons]
      omega
    · by_cases hp : p y = true
      · rw [if_pos hp]
        have := ih har
        simp only [List.length_cons]
        omega
      · rw [if_neg (by simpa using hp)]
        have := ih har
        simp only [List.length_cons]
        omega

theorem crossCount_lt_length {avail : List Pack} {m : Int}
    {lines : List OrderPack}
    (hmA : m ∈ amountsOf avail) (hmpos : 0 < m)
    (hmmin : ∀ a ∈ amountsOf avail, m ≤ a)
    (hsz : ∀ p ∈ lines, p.pack.amount ∈ amountsOf avail) :
    crossCount avail lines < avail.length := by
  have hv : vBelow m lines = 0 :=
    vBelow_eq_zero (fun p hp => hmmin _ (hsz p hp))
  have hfalse : (fun t => decide (t ≤ vBelow t lines)) m = false := by
    simp only [decide_eq_false_iff_not, hv]
    omega
  have := filter_length_lt_of_mem (amountsOf avail)
    (fun t => decide (t ≤ vBelow t lines)) hmA hfalse
  have hlen : (amountsOf avail).length = avail.length := by
    simp [amountsOf]
  rw [crossCount]
  omega

/-! ### The consolidation loop -/

theorem mergePacksLoop_fix {avail : List Pack} {o : Order}
    (hq : ∀ p ∈ o.packs, 0 ≤ p.quantity)
    (hnone : findSameSizeMerge avail (sizeGroups o.packs) = none) :
    ∀ fuel, mergePacksLoop avail fuel o = o := by
  intro fuel
  induction fuel with
  | zero => rfl
  | succ n ih =>
    have hr : tryMergeSameSizePacks avail o = (false, o) := by
      rw [tryMergeSameSizePacks, tryMergeSameSizePacksOn, hnone]
    have hd : tryMergeDifferentSizePacks avail o = o := by
      rw [tryMergeDifferentSizePacks, fdsm_none_of_fssm_none hq hnone]
    rw [mergePacksLoop]
    rw [hr]
    simp only [Bool.false_eq_true, if_false, hd]
    exact ih

theorem mergePacksLoop_main {avail : List Pack} {m : Int}
    (hApos : ∀ a ∈ amountsOf avail, 0 < a)
    (hmmin : ∀ a ∈ amountsOf avail, m ≤ a) :
    ∀ (fuel : Nat) (o : Order), MergeInv (amountsOf avail) m o.packs →
    crossCount avail o.packs < fuel →
    MergeInv (amountsOf avail) m (mergePacksLoop avail fuel o).packs ∧
    linesTotal (mergePacksLoop avail fuel o).packs = linesTotal o.packs ∧
    (mergePacksLoop avail fuel o).requestedItems = o.requestedItems ∧
    (mergePacksLoop avail fuel o).totalItems = o.totalItems ∧
    (mergePacksLoop avail fuel o).overpackedItems = o.overpackedItems ∧
    findSameSizeMerge avail
      (sizeGroups (mergePacksLoop avail fuel o).packs) = none := by
  intro fuel
  induction fuel with
  | zero => intro o _ hcross; omega
  | succ n ih =>
    intro o hinv hcross
    cases hf : findSameSizeMerge avail (sizeGroups o.packs) with
    | none =>
      rw [mergePacksLoop_fix
        (fun p hp => le_of_lt (hinv.qpos p hp)) hf]
      exact ⟨hinv, rfl, rfl, rfl, rfl, hf⟩
    | some st =>
      obtain ⟨S, T⟩ := st
      have hr : tryMergeSameSizePacks avail o
          = (true, mergePack o S T (goDiv T S)) := by
        rw [tryMergeSameSizePacks, tryMergeSameSizePacksOn, hf]
      obtain ⟨hinv', htot, hvmono, hvT, hTmem, hTcross⟩ :=
        merge_step hApos hmmin hinv hf
      have hpacks : (mergePack o S T (goDiv T S)).packs
          = bumpOrAppend (mergePackRemove o.packs S (goDiv T S)) T := rfl
      have hcc : crossCount avail (mergePack o S T (goDiv T S)).packs
          < crossCount avail o.packs := by
        rw [hpacks]
        apply filter_length_lt
        · intro t htmem hq
          simp only [decide_eq_true_eq] at hq ⊢
          exact le_trans hq (hvmono t)
        · refine ⟨T, hTmem, by simpa using hTcross, ?_⟩
          simp only [decide_eq_false_iff_not]
          have hmT := hmmin T hTmem
          omega
      have hloopstep : mergePacksLoop avail (n + 1) o
          = mergePacksLoop avail n (mergePack o S T (goDiv T S)) := by
        rw [mergePacksLoop, hr]
        simp
      obtain ⟨hi1, hi2, hi3, hi4, hi5, hi6⟩ :=
        ih (mergePack o S T (goDiv T S)) (by rw [hpacks]; exact hinv')
          (by omega)
      rw [hloopstep]
      refine ⟨hi1, ?_, hi3, hi4, hi5, hi6⟩
      rw [hi2, hpacks, htot]

/-! ### Entry facts: the order produced by stages 4.1–4.2 -/

theorem obm_packs_eq (packs : List Pack) (R : Int) (hne : packs ≠ []) :
    (orderBeforeMerge packs R).packs
      = (useFullPacksAux packs R (initOrder R)).2.packs
        ++ (if (useFullPacksAux packs R (initOrder R)).1 ≤ 0 then []
            else [⟨1, packs.getLast hne⟩]) := by
  have hlast : packs.getLast? = some (packs.getLast hne) :=
    List.getLast?_eq_getLast packs hne
  have hreq : (initOrder R).requestedItems = R := rfl
  by_cases h0 : (useFullPacksAux packs R (initOrder R)).1 ≤ 0
  · simp [orderBeforeMerge, useFullPacks, addPackForRemainingItems, hreq,
      hlast, h0]
  · simp [orderBeforeMerge, useFullPacks, addPackForRemainingItems, hreq,
      hlast, h0]

theorem ufp_single (p : Pack) (rem : Int) (o : Order)
    (hpos : 0 < p.amount) (hrem : 0 ≤ rem) :
    useFullPacksAux [p] rem o =
      if p.amount ≤ rem then
        (rem - goDiv rem p.amount * p.amount,
         { o with
           packs := o.packs ++ [⟨goDiv rem p.amount, p⟩],
           totalItems := o.totalItems + goDiv rem p.amount * p.amount })
      else (rem, o) := by
  by_cases h : p.amount ≤ rem
  · have hq : 0 < goDiv rem p.amount := goDiv_pos hpos h
    simp [useFullPacksAux, h, hq]
  · simp [useFullPacksAux, h]

theorem linesOf_len_le_one {l : List OrderPack}
    (hnd : (lineSizes l).Nodup) (a : Int) : (linesOf a l).length ≤ 1 := by
  induction l with
  | nil => simp [linesOf_nil]
  | cons x rest ih =>
    have hnd2 : (x.pack.amount :: lineSizes rest).Nodup := by
      simpa [lineSizes] using hnd
    rw [linesOf_cons]
    by_cases hx : x.pack.amount = a
    · rw [if_pos hx]
      have hrest : linesOf a rest = [] := by
        refine linesOf_eq_nil ?_
        rw [← hx]
        exact (List.nodup_cons.1 hnd2).1
      rw [hrest]
      simp
    · rw [if_neg hx]
      exact le_trans (ih (List.nodup_cons.1 hnd2).2) (by omega)

theorem lineSizes_eq_map_pack (l : List OrderPack) :
    lineSizes l = (l.map OrderPack.pack).map Pack.amount := by
  simp [lineSizes]

theorem pack_mem_of_sublist {new : List OrderPack} {ps : List Pack}
    (h : List.Sublist (new.map OrderPack.pack) ps) :
    ∀ l ∈ new, l.pack ∈ ps := by
  intro l hl
  exact h.subset (List.mem_map_of_mem OrderPack.pack hl)

theorem obm_inv (packs : List Pack) (R : Int) (hne : packs ≠ [])
    (hpos : ∀ p ∈ packs, 0 < p.amount)
    (hsort : List.Sorted packDesc packs)
    (hnd : (amountsOf packs).Nodup) (hR : 0 ≤ R) :
    MergeInv (amountsOf packs) (packs.getLast hne).amount
      (orderBeforeMerge packs R).packs := by
  have hlastmem : packs.getLast hne ∈ packs := List.getLast_mem hne
  have hmpos : 0 < (packs.getLast hne).amount := hpos _ hlastmem
  obtain ⟨ha1, ha2, ha3, ha4, ha5, ha6, new, hb1, hb2, hb3, hb4⟩ :=
    ufp_main packs R (initOrder R) hpos hR
  have hb1' : (useFullPacksAux packs R (initOrder R)).2.packs = new := by
    simpa [initOrder] using hb1
  have hops := obm_packs_eq packs R hne
  rw [hb1'] at hops
  have hndnew : (lineSizes new).Nodup := by
    rw [lineSizes_eq_map_pack]
    exact List.Nodup.sublist (hb3.map Pack.amount) hnd
  have hresfact : ∀ p ∈ (if (useFullPacksAux packs R (initOrder R)).1 ≤ 0
      then ([] : List OrderPack) else [⟨1, packs.getLast hne⟩]),
      p = (⟨1, packs.getLast hne⟩ : OrderPack) := by
    intro p hp
    by_cases h0 : (useFullPacksAux packs R (initOrder R)).1 ≤ 0
    · rw [if_pos h0] at hp; simp at hp
    · rw [if_neg h0] at hp; simpa using hp
  have hreslen : ∀ a : Int,
      (linesOf a (if (useFullPacksAux packs R (initOrder R)).1 ≤ 0
        then ([] : List OrderPack)
        else [⟨1, packs.getLast hne⟩])).length ≤ 1 := by
    intro a
    by_cases h0 : (useFullPacksAux packs R (initOrder R)).1 ≤ 0
    · rw [if_pos h0]; simp [linesOf_nil]
    · rw [if_neg h0, linesOf_cons]
      by_cases ha : (packs.getLast hne).amount = a
      · rw [if_pos ha, linesOf_nil]; simp
      · rw [if_neg ha, linesOf_nil]; simp
  have hresother : ∀ a : Int, a ≠ (packs.getLast hne).amount →
      linesOf a (if (useFullPacksAux packs R (initOrder R)).1 ≤ 0
        then ([] : List OrderPack) else [⟨1, packs.getLast hne⟩]) = [] := by
    intro a ha
    by_cases h0 : (useFullPacksAux packs R (initOrder R)).1 ≤ 0
    · rw [if_pos h0]; rfl
    · rw [if_neg h0, linesOf_cons, if_neg (by simpa using Ne.symm ha)]
      rfl
  have hsplit : packs = packs.dropLast ++ [packs.getLast hne] :=
    (List.dropLast_append_getLast hne).symm
  have heqA : amountsOf packs
      = amountsOf packs.dropLast ++ [(packs.getLast hne).amount] := by
    conv_lhs => rw [hsplit]
    simp [amountsOf]
  have hdpos : ∀ p ∈ packs.dropLast, 0 < p.amount :=
    fun p hp => hpos p ((List.dropLast_sublist packs).subset hp)
  obtain ⟨hd1, hd2, hd3, hd4, hd5, hd6, new1, he1, he2, he3, he4⟩ :=
    ufp_main packs.dropLast R (initOrder R) hdpos hR
  have he1' : (useFullPacksAux packs.dropLast R (initOrder R)).2.packs
      = new1 := by simpa [initOrder] using he1
  have hrsplit : useFullPacksAux packs R (initOrder R)
      = useFullPacksAux [packs.getLast hne]
          (useFullPacksAux packs.dropLast R (initOrder R)).1
          (useFullPacksAux packs.dropLast R (initOrder R)).2 := by
    conv_lhs => rw [hsplit]
    rw [ufp_append]
  have hmnotdrop : (packs.getLast hne).amount ∉ amountsOf packs.dropLast := by
    intro hc
    rw [heqA] at hnd
    exact (List.nodup_append.1 hnd).2.2 hc (by simp)
  have hnom1 : linesOf (packs.getLast hne).amount new1 = [] := by
    refine linesOf_eq_nil ?_
    intro hc
    apply hmnotdrop
    have hsub : List.Sublist (lineSizes new1) (amountsOf packs.dropLast) := by
      rw [lineSizes_eq_map_pack]
      exact he3.map Pack.amount
    exact hsub.subset hc
  have hmnew : linesOf (packs.getLast hne).amount new = [] ∨
      ∃ q1, linesOf (packs.getLast hne).amount new
          = [⟨q1, packs.getLast hne⟩] ∧
        q1 * (packs.getLast hne).amount
          ≤ (useFullPacksAux packs.dropLast R (initOrder R)).1 := by
    by_cases hcase : (packs.getLast hne).amount
        ≤ (useFullPacksAux packs.dropLast R (initOrder R)).1
    · right
      have hstep := ufp_single (packs.getLast hne)
        (useFullPacksAux packs.dropLast R (initOrder R)).1
        (useFullPacksAux packs.dropLast R (initOrder R)).2 hmpos hd3
      rw [if_pos hcase] at hstep
      have hthis := hb1'
      rw [hrsplit, hstep] at hthis
      simp only [] at hthis
      rw [he1'] at hthis
      refine ⟨goDiv (useFullPacksAux packs.dropLast R (initOrder R)).1
        (packs.getLast hne).amount, ?_, goDiv_mul_le hd3 hmpos⟩
      rw [← hthis, linesOf_append, hnom1, List.nil_append, linesOf_cons,
        if_pos rfl, linesOf_nil]
    · left
      have hstep := ufp_single (packs.getLast hne)
        (useFullPacksAux packs.dropLast R (initOrder R)).1
        (useFullPacksAux packs.dropLast R (initOrder R)).2 hmpos hd3
      rw [if_neg hcase] at hstep
      have hthis := hb1'
      rw [hrsplit, hstep] at hthis
      rw [he1'] at hthis
      rw [← hthis]
      exact hnom1
  have hremT : ∀ T ∈ amountsOf packs, T ≠ (packs.getLast hne).amount →
      (useFullPacksAux packs.dropLast R (initOrder R)).1 < T := by
    intro T hT hTne
    rw [heqA] at hT
    rcases List.mem_append.1 hT with h | h
    · obtain ⟨pT, hpT, hpTa⟩ := List.mem_map.1 h
      rw [← hpTa]
      exact hd5 pT hpT
    · simp at h
      exact absurd h hTne
  rw [hops]
  constructor
  · intro p hp
    rcases List.mem_append.1 hp with h | h
    · exact hb2 p h
    · rw [hresfact p h]; simp
  · intro p hp
    rcases List.mem_append.1 hp with h | h
    · exact List.mem_map_of_mem Pack.amount (pack_mem_of_sublist hb3 p h)
    · rw [hresfact p h]
      exact List.mem_map_of_mem Pack.amount hlastmem
  · intro a hane
    rw [linesOf_append, hresother a hane, List.append_nil]
    exact linesOf_len_le_one hndnew a
  · rw [linesOf_append, List.length_append]
    have h1 := linesOf_len_le_one hndnew (packs.getLast hne).amount
    have h2 := hreslen (packs.getLast hne).amount
    omega
  · intro p1 p2 rest hsh T hT hmT
    rw [linesOf_append] at hsh
    rcases hmnew with hz | ⟨q1, hq, hqb⟩
    · rw [hz, List.nil_append] at hsh
      have := hreslen (packs.getLast hne).amount
      rw [hsh] at this
      simp at this
    · rw [hq, List.singleton_append] at hsh
      injection hsh with hp1 hrest2
      rw [← hp1]
      have hTgt := hremT T hT (by omega)
      simp only []
      omega
  · intro t ht
    obtain ⟨pt, hptmem, hpta⟩ := mem_amountsOf.1 ht
    obtain ⟨pre, post, hsplit2⟩ := List.append_of_mem hptmem
    have hsplit3 : packs = (pre ++ [pt]) ++ post := by
      rw [hsplit2]; simp
    have hprepos : ∀ p ∈ pre ++ [pt], 0 < p.amount := by
      intro p hp
      exact hpos p (by rw [hsplit3]; exact List.mem_append.2 (Or.inl hp))
    have hpostpos : ∀ p ∈ post, 0 < p.amount := by
      intro p hp
      exact hpos p (by rw [hsplit3]; exact List.mem_append.2 (Or.inr hp))
    obtain ⟨hf1, hf2, hf3, hf4, hf5, hf6, n1, hg1, hg2, hg3, hg4⟩ :=
      ufp_main (pre ++ [pt]) R (initOrder R) hprepos hR
    obtain ⟨hj1, hj2, hj3, hj4, hj5, hj6, n2, hk1, hk2, hk3, hk4⟩ :=
      ufp_main post (useFullPacksAux (pre ++ [pt]) R (initOrder R)).1
        (useFullPacksAux (pre ++ [pt]) R (initOrder R)).2 hpostpos hf3
    have hcomp : useFullPacksAux packs R (initOrder R)
        = useFullPacksAux post
            (useFullPacksAux (pre ++ [pt]) R (initOrder R)).1
            (useFullPacksAux (pre ++ [pt]) R (initOrder R)).2 := by
      conv_lhs => rw [hsplit3]
      rw [ufp_append]
    have hg1' : (useFullPacksAux (pre ++ [pt]) R (initOrder R)).2.packs
        = n1 := by simpa [initOrder] using hg1
    have hnew12 : new = n1 ++ n2 := by
      have hthis := hb1'
      rw [hcomp, hk1, hg1'] at hthis
      exact hthis.symm
    have hrem1t : (useFullPacksAux (pre ++ [pt]) R (initOrder R)).1
        < t := by
      have := hf5 pt (List.mem_append.2 (Or.inr (by simp)))
      omega
    have hv1 : vBelow t n1 = 0 := by
      refine vBelow_eq_zero ?_
      intro l hl
      have hlp : l.pack ∈ pre ++ [pt] := pack_mem_of_sublist hg3 l hl
      have hpw := hsort
      rw [hsplit2] at hpw
      rcases List.mem_append.1 hlp with h | h
      · have := (List.pairwise_append.1 hpw).2.2 l.pack h pt (by simp)
        rw [packDesc] at this
        omega
      · simp at h
        rw [h]
        omega
    have hv2 : vBelow t n2 ≤ (useFullPacksAux (pre ++ [pt]) R (initOrder R)).1 := by
      have hnn : ∀ p ∈ n2, 0 ≤ p.quantity * p.pack.amount := by
        intro p hp
        have hq := hk2 p hp
        have hmem : p.pack ∈ post := pack_mem_of_sublist hk3 p hp
        have := hpostpos p.pack hmem
        nlinarith
      have h1 := @vBelow_le_linesTotal t n2 hnn
      have h2 := hj3
      omega
    have hv3 : vBelow t (if (useFullPacksAux packs R (initOrder R)).1 ≤ 0
        then ([] : List OrderPack) else [⟨1, packs.getLast hne⟩])
        ≤ (packs.getLast hne).amount := by
      by_cases h0 : (useFullPacksAux packs R (initOrder R)).1 ≤ 0
      · rw [if_pos h0, vBelow_nil]
        omega
      · rw [if_neg h0, vBelow_cons, vBelow_nil]
        by_cases hlt : (packs.getLast hne).amount < t
        · rw [if_pos (by simpa using hlt)]
          simp
        · rw [if_neg (by simpa using hlt)]
          omega
    rw [hnew12, vBelow_append, vBelow_append, hv1]
    omega

/-! ### Pipeline assembly -/

theorem CalculateOrder_eq (N : Nat) (s : PackStorage) (R : Int)
    (hne : s.packs ≠ []) :
    CalculateOrder N s R =
      (.ok (mergePacks (resortPacks s.packs)
          (orderBeforeMerge (resortPacks s.packs) R)),
       { packs := resortPacks s.packs,
         orders := (if N ≤ s.orders.length
             then s.orders.drop (s.orders.length - (N - 1)) else s.orders)
           ++ [mergePacks (resortPacks s.packs)
                (orderBeforeMerge (resortPacks s.packs) R)] }) := by
  rw [CalculateOrder, if_neg (by simp [hne])]

theorem MergeInv_congr {A A' : List Int} {m : Int} {lines : List OrderPack}
    (h : ∀ a, a ∈ A ↔ a ∈ A') (hinv : MergeInv A m lines) :
    MergeInv A' m lines := by
  constructor
  · exact hinv.qpos
  · exact fun p hp => (h _).1 (hinv.sizesIn p hp)
  · exact hinv.single
  · exact hinv.dlen
  · exact fun p1 p2 rest hsh T hT hmT =>
      hinv.dbound p1 p2 rest hsh T ((h T).2 hT) hmT
  · exact fun t ht => hinv.vbound t ((h t).2 ht)

theorem resortPacks_ne_nil {l : List Pack} (h : l ≠ []) :
    resortPacks l ≠ [] := by
  intro hc
  apply h
  have := (resortPacks_perm l).length_eq
  rw [hc] at this
  exact List.length_eq_zero.1 this.symm

theorem pipeline_main (s : PackStorage) (R : Int)
    (hne : s.packs ≠ []) (hpos : ∀ p ∈ s.packs, 0 < p.amount)
    (hnd : (amountsOf s.packs).Nodup) (hR : 0 ≤ R) :
    ∃ m, (∃ p ∈ s.packs, p.amount = m) ∧ (∀ p ∈ s.packs, m ≤ p.amount) ∧
    MergeInv (amountsOf s.packs) m
      (mergePacks (resortPacks s.packs)
        (orderBeforeMerge (resortPacks s.packs) R)).packs ∧
    linesTotal (mergePacks (resortPacks s.packs)
        (orderBeforeMerge (resortPacks s.packs) R)).packs
      = linesTotal (orderBeforeMerge (resortPacks s.packs) R).packs ∧
    (mergePacks (resortPacks s.packs)
        (orderBeforeMerge (resortPacks s.packs) R)).requestedItems
      = (orderBeforeMerge (resortPacks s.packs) R).requestedItems ∧
    (mergePacks (resortPacks s.packs)
        (orderBeforeMerge (resortPacks s.packs) R)).totalItems
      = (orderBeforeMerge (resortPacks s.packs) R).totalItems ∧
    (mergePacks (resortPacks s.packs)
        (orderBeforeMerge (resortPacks s.packs) R)).overpackedItems
      = (orderBeforeMerge (resortPacks s.packs) R).overpackedItems ∧
    findSameSizeMerge (getSortedPackSizes (resortPacks s.packs))
      (sizeGroups (mergePacks (resortPacks s.packs)
        (orderBeforeMerge (resortPacks s.packs) R)).packs) = none := by
  have hpune : resortPacks s.packs ≠ [] := resortPacks_ne_nil hne
  have hpu_perm := resortPacks_perm s.packs
  have hpupos : ∀ p ∈ resortPacks s.packs, 0 < p.amount :=
    fun p hp => hpos p (hpu_perm.mem_iff.1 hp)
  have hpusort := resortPacks_sorted s.packs
  have hpuA : (amountsOf (resortPacks s.packs)).Perm (amountsOf s.packs) :=
    amountsOf_perm hpu_perm
  have hpund : (amountsOf (resortPacks s.packs)).Nodup :=
    hpuA.nodup_iff.2 hnd
  have hav_perm := getSortedPackSizes_perm (resortPacks s.packs)
  have havA : (amountsOf (getSortedPackSizes (resortPacks s.packs))).Perm
      (amountsOf (resortPacks s.packs)) := amountsOf_perm hav_perm
  have hAiff : ∀ a,
      a ∈ amountsOf (resortPacks s.packs)
        ↔ a ∈ amountsOf (getSortedPackSizes (resortPacks s.packs)) :=
    fun a => (havA.mem_iff).symm
  have hmmem : (resortPacks s.packs).getLast hpune ∈ resortPacks s.packs :=
    List.getLast_mem hpune
  have hmmin : ∀ a ∈ amountsOf (resortPacks s.packs),
      ((resortPacks s.packs).getLast hpune).amount ≤ a := by
    intro a ha
    obtain ⟨p, hp, hpa⟩ := List.mem_map.1 ha
    rw [← hpa]
    exact sorted_getLast_min hpusort hpune p hp
  have hmpos : 0 < ((resortPacks s.packs).getLast hpune).amount :=
    hpupos _ hmmem
  have hinv0 : MergeInv
      (amountsOf (getSortedPackSizes (resortPacks s.packs)))
      ((resortPacks s.packs).getLast hpune).amount
      (orderBeforeMerge (resortPacks s.packs) R).packs :=
    MergeInv_congr hAiff
      (obm_inv (resortPacks s.packs) R hpune hpupos hpusort hpund hR)
  have hApos' : ∀ a ∈ amountsOf (getSortedPackSizes (resortPacks s.packs)),
      0 < a := by
    intro a ha
    obtain ⟨p, hp, hpa⟩ := List.mem_map.1 ((hAiff a).2 ha)
    rw [← hpa]
    exact hpupos p hp
  have hmmin' : ∀ a ∈ amountsOf (getSortedPackSizes (resortPacks s.packs)),
      ((resortPacks s.packs).getLast hpune).amount ≤ a :=
    fun a ha => hmmin a ((hAiff a).2 ha)
  have hmA' : ((resortPacks s.packs).getLast hpune).amount
      ∈ amountsOf (getSortedPackSizes (resortPacks s.packs)) :=
    (hAiff _).1 (List.mem_map_of_mem Pack.amount hmmem)
  have hcc : crossCount (getSortedPackSizes (resortPacks s.packs))
      (orderBeforeMerge (resortPacks s.packs) R).packs
      < (getSortedPackSizes (resortPacks s.packs)).length :=
    crossCount_lt_length hmA' hmpos hmmin' hinv0.sizesIn
  obtain ⟨hi1, hi2, hi3, hi4, hi5, hi6⟩ :=
    mergePacksLoop_main hApos' hmmin'
      (getSortedPackSizes (resortPacks s.packs)).length
      (orderBeforeMerge (resortPacks s.packs) R) hinv0 hcc
  have hmp : mergePacks (resortPacks s.packs)
      (orderBeforeMerge (resortPacks s.packs) R)
      = mergePacksLoop (getSortedPackSizes (resortPacks s.packs))
        (getSortedPackSizes (resortPacks s.packs)).length
        (orderBeforeMerge (resortPacks s.packs) R) := rfl
  have hAiff2 : ∀ a,
      a ∈ amountsOf (getSortedPackSizes (resortPacks s.packs))
        ↔ a ∈ amountsOf s.packs :=
    fun a => (havA.trans hpuA).mem_iff
  refine ⟨((resortPacks s.packs).getLast hpune).amount,
    ⟨(resortPacks s.packs).getLast hpune, hpu_perm.mem_iff.1 hmmem, rfl⟩,
    ?_, ?_, ?_, ?_, ?_, ?_, ?_⟩
  · intro p hp
    exact hmmin p.amount
      (List.mem_map_of_mem Pack.amount (hpu_perm.mem_iff.2 hp))
  · rw [hmp]
    exact MergeInv_congr hAiff2 hi1
  · rw [hmp]; exact hi2
  · rw [hmp]; exact hi3
  · rw [hmp]; exact hi4
  · rw [hmp]; exact hi5
  · rw [hmp]; exact hi6

/-! ### Field preservation through consolidation -/

theorem tms_fields (avail : List Pack) (o : Order) :
    (tryMergeSameSizePacks avail o).2.requestedItems = o.requestedItems ∧
    (tryMergeSameSizePacks avail o).2.totalItems = o.totalItems ∧
    (tryMergeSameSizePacks avail o).2.overpackedItems = o.overpackedItems := by
  rw [tryMergeSameSizePacks, tryMergeSameSizePacksOn]
  cases findSameSizeMerge avail (sizeGroups o.packs) with
  | none => exact ⟨rfl, rfl, rfl⟩
  | some st => exact ⟨rfl, rfl, rfl⟩

theorem tmd_fields (avail : List Pack) (o : Order) :
    (tryMergeDifferentSizePacks avail o).requestedItems = o.requestedItems ∧
    (tryMergeDifferentSizePacks avail o).totalItems = o.totalItems ∧
    (tryMergeDifferentSizePacks avail o).overpackedItems
      = o.overpackedItems := by
  rw [tryMergeDifferentSizePacks]
  cases findDiffSizeMerge avail o.packs with
  | none => exact ⟨rfl, rfl, rfl⟩
  | some st => exact ⟨rfl, rfl, rfl⟩

theorem mergePacksLoop_fields (avail : List Pack) :
    ∀ (fuel : Nat) (o : Order),
    (mergePacksLoop avail fuel o).requestedItems = o.requestedItems ∧
    (mergePacksLoop avail fuel o).totalItems = o.totalItems ∧
    (mergePacksLoop avail fuel o).overpackedItems = o.overpackedItems := by
  intro fuel
  induction fuel with
  | zero => exact fun o => ⟨rfl, rfl, rfl⟩
  | succ n ih =>
    intro o
    rw [mergePacksLoop]
    rcases hr : tryMergeSameSizePacks avail o with ⟨b, o'⟩
    have ho' := tms_fields avail o
    rw [hr] at ho'
    cases b with
    | true =>
      simp only [if_true]
      obtain ⟨i1, i2, i3⟩ := ih o'
      exact ⟨i1.trans ho'.1, i2.trans ho'.2.1, i3.trans ho'.2.2⟩
    | false =>
      simp only [Bool.false_eq_true, if_false]
      have hd := tmd_fields avail o'
      obtain ⟨i1, i2, i3⟩ := ih (tryMergeDifferentSizePacks avail o')
      exact ⟨(i1.trans hd.1).trans ho'.1, (i2.trans hd.2.1).trans ho'.2.1,
        (i3.trans hd.2.2).trans ho'.2.2⟩

theorem mergePacks_fields (packs : List Pack) (o : Order) :
    (mergePacks packs o).requestedItems = o.requestedItems ∧
    (mergePacks packs o).totalItems = o.totalItems ∧
    (mergePacks packs o).overpackedItems = o.overpackedItems :=
  mergePacksLoop_fields (getSortedPackSizes packs)
    (getSortedPackSizes packs).length o

/-! ### Claim C5 -/

/-- C5: for every requested quantity, `CalculateOrder` on an empty catalog
fails with the `noPacksAvailable` error, returns no partial Order, and
leaves the whole storage — in particular the order history — unchanged. -/
theorem claim_C5_empty_catalog (N : Nat) (s : PackStorage) (R : Int)
    (h : s.packs = []) :
    (CalculateOrder N s R).1 = .error .noPacksAvailable ∧
    (CalculateOrder N s R).2 = s ∧
    (CalculateOrder N s R).2.orders = s.orders := by
  rw [CalculateOrder, if_pos (by simp [h])]
  exact ⟨rfl, rfl, rfl⟩

/-- Witness for C5 at the concrete storage `NewPackStorage` and quantity 5. -/
theorem claim_C5_empty_catalog_witness :
    NewPackStorage.packs = [] ∧
    ((CalculateOrder 20 NewPackStorage 5).1 = .error .noPacksAvailable ∧
     (CalculateOrder 20 NewPackStorage 5).2 = NewPackStorage ∧
     (CalculateOrder 20 NewPackStorage 5).2.orders
       = NewPackStorage.orders) :=
  ⟨rfl, claim_C5_empty_catalog 20 NewPackStorage 5 rfl⟩

/-! ### Claims C3 and C9 -/

/-- C3: for every non-empty catalog of positive pack sizes and every
requested quantity R > 0, the returned Order satisfies totalItems ≥ R and
overpackedItems = totalItems − R ≥ 0: the order never under-fulfils. -/
theorem claim_C3_never_underfulfil (N : Nat) (s : PackStorage) (R : Int)
    (hne : s.packs ≠ []) (hpos : ∀ p ∈ s.packs, 0 < p.amount)
    (hR : 0 < R) :
    ∀ o : Order, (CalculateOrder N s R).1 = .ok o →
      R ≤ o.totalItems ∧ o.overpackedItems = o.totalItems - R ∧
      0 ≤ o.overpackedItems := by
  intro o ho
  rw [CalculateOrder_eq N s R hne] at ho
  have hoeq : o = mergePacks (resortPacks s.packs)
      (orderBeforeMerge (resortPacks s.packs) R) := by
    injection ho with h1
    exact h1.symm
  have hpune : resortPacks s.packs ≠ [] := resortPacks_ne_nil hne
  have hpupos : ∀ p ∈ resortPacks s.packs, 0 < p.amount :=
    fun p hp => hpos p ((resortPacks_perm s.packs).mem_iff.1 hp)
  obtain ⟨hf1, hf2, hf3, hf4, hf5⟩ := obm_facts (resortPacks s.packs) R
    hpune hpupos (resortPacks_sorted s.packs) (le_of_lt hR)
  obtain ⟨hm1, hm2, hm3⟩ := mergePacks_fields (resortPacks s.packs)
    (orderBeforeMerge (resortPacks s.packs) R)
  subst hoeq
  refine ⟨?_, ?_, ?_⟩
  · rw [hm2]; exact hf4
  · rw [hm3, hm2, hf2]
  · rw [hm3, hf2]; omega

/-- Witness for C3: catalog {2}, R = 3 gives totalItems 4 ≥ 3. -/
theorem claim_C3_never_underfulfil_witness :
    (({ packs := [⟨2⟩], orders := [] } : PackStorage).packs ≠ [] ∧
     (∀ p ∈ ({ packs := [⟨2⟩], orders := [] } : PackStorage).packs,
        0 < p.amount) ∧ (0 : Int) < 3) ∧
    ((3 : Int) ≤ (calcOrder 20 { packs := [⟨2⟩], orders := [] } 3).totalItems ∧
     (calcOrder 20 { packs := [⟨2⟩], orders := [] } 3).overpackedItems
       = (calcOrder 20 { packs := [⟨2⟩], orders := [] } 3).totalItems - 3 ∧
     0 ≤ (calcOrder 20 { packs := [⟨2⟩], orders := [] } 3).overpackedItems) :=
  ⟨⟨by decide, by decide, by decide⟩,
   claim_C3_never_underfulfil 20 { packs := [⟨2⟩], orders := [] } 3
     (by decide) (by decide) (by decide)
     (calcOrder 20 { packs := [⟨2⟩], orders := [] } 3) rfl⟩

/-- C9: with a non-empty catalog of positive sizes and R > 0, the remainder
left by greedy fill is smaller than every catalog size (hence smaller than
the smallest), residual addition adds at most one smallest pack, and the
returned Order's overpackedItems is strictly below every catalog pack size,
in particular below the smallest. -/
theorem claim_C9_overpack_lt_smallest (N : Nat) (s : PackStorage) (R : Int)
    (hne : s.packs ≠ []) (hpos : ∀ p ∈ s.packs, 0 < p.amount)
    (hR : 0 < R) :
    (∀ p ∈ s.packs,
      (useFullPacks (resortPacks s.packs) (initOrder R)).1 < p.amount) ∧
    ∀ o : Order, (CalculateOrder N s R).1 = .ok o →
      ∀ p ∈ s.packs, o.overpackedItems < p.amount := by
  have hpune : resortPacks s.packs ≠ [] := resortPacks_ne_nil hne
  have hpupos : ∀ p ∈ resortPacks s.packs, 0 < p.amount :=
    fun p hp => hpos p ((resortPacks_perm s.packs).mem_iff.1 hp)
  constructor
  · intro p hp
    obtain ⟨_, _, _, _, ha5, _, _⟩ :=
      ufp_main (resortPacks s.packs) R (initOrder R) hpupos (le_of_lt hR)
    exact ha5 p ((resortPacks_perm s.packs).mem_iff.2 hp)
  · intro o ho p hp
    rw [CalculateOrder_eq N s R hne] at ho
    have hoeq : o = mergePacks (resortPacks s.packs)
        (orderBeforeMerge (resortPacks s.packs) R) := by
      injection ho with h1
      exact h1.symm
    obtain ⟨hf1, hf2, hf3, hf4, hf5⟩ := obm_facts (resortPacks s.packs) R
      hpune hpupos (resortPacks_sorted s.packs) (le_of_lt hR)
    obtain ⟨hm1, hm2, hm3⟩ := mergePacks_fields (resortPacks s.packs)
      (orderBeforeMerge (resortPacks s.packs) R)
    subst hoeq
    rw [hm3]
    exact hf5 p ((resortPacks_perm s.packs).mem_iff.2 hp)

/-- Witness for C9: catalog {2, 5}, R = 8 leaves greedy remainder 1 < 2 and
overpack 1 < 2. -/
theorem claim_C9_overpack_lt_smallest_witness :
    (({ packs := [⟨2⟩, ⟨5⟩], orders := [] } : PackStorage).packs ≠ [] ∧
     (∀ p ∈ ({ packs := [⟨2⟩, ⟨5⟩], orders := [] } : PackStorage).packs,
        0 < p.amount) ∧ (0 : Int) < 8) ∧
    ((useFullPacks (resortPacks [⟨2⟩, ⟨5⟩]) (initOrder 8)).1 < 2 ∧
     (calcOrder 20 { packs := [⟨2⟩, ⟨5⟩], orders := [] }
        8).overpackedItems < 2) :=
  ⟨⟨by decide, by decide, by decide⟩,
   (claim_C9_overpack_lt_smallest 20 { packs := [⟨2⟩, ⟨5⟩], orders := [] } 8
     (by decide) (by decide) (by decide)).1 ⟨2⟩ (by decide),
   (claim_C9_overpack_lt_smallest 20 { packs := [⟨2⟩, ⟨5⟩], orders := [] } 8
     (by decide) (by decide) (by decide)).2
     (calcOrder 20 { packs := [⟨2⟩, ⟨5⟩], orders := [] } 8) rfl
     ⟨2⟩ (by decide)⟩

/-! ### Claim C2 -/

theorem tms_false_iff (avail : List Pack) (o : Order) :
    (tryMergeSameSizePacks avail o).1 = false ↔
      findSameSizeMerge avail (sizeGroups o.packs) = none := by
  rw [tryMergeSameSizePacks, tryMergeSameSizePacksOn]
  cases hf : findSameSizeMerge avail (sizeGroups o.packs) with
  | none => simp
  | some st => simp

/-- C2: consolidation preserves the total item count carried by the lines of
every Order fed into it by stage 4.2 of `CalculateOrder`, and when no merge
applies the Order passes through consolidation unchanged. -/
theorem claim_C2_consolidation_preserves_total (s : PackStorage) (R : Int)
    (hne : s.packs ≠ []) (hpos : ∀ p ∈ s.packs, 0 < p.amount)
    (hnd : (amountsOf s.packs).Nodup) (hR : 0 < R) :
    linesTotal (mergePacks (resortPacks s.packs)
        (orderBeforeMerge (resortPacks s.packs) R)).packs
      = linesTotal (orderBeforeMerge (resortPacks s.packs) R).packs ∧
    ((tryMergeSameSizePacks (getSortedPackSizes (resortPacks s.packs))
        (orderBeforeMerge (resortPacks s.packs) R)).1 = false →
      mergePacks (resortPacks s.packs)
        (orderBeforeMerge (resortPacks s.packs) R)
        = orderBeforeMerge (resortPacks s.packs) R) := by
  obtain ⟨m, hmmem, hmmin, hinvF, htotF, hreqF, htotF2, hoverF, hnoneF⟩ :=
    pipeline_main s R hne hpos hnd (le_of_lt hR)
  refine ⟨htotF, ?_⟩
  intro hfalse
  rw [tms_false_iff] at hfalse
  have hpune : resortPacks s.packs ≠ [] := resortPacks_ne_nil hne
  have hpupos : ∀ p ∈ resortPacks s.packs, 0 < p.amount :=
    fun p hp => hpos p ((resortPacks_perm s.packs).mem_iff.1 hp)
  have hpund : (amountsOf (resortPacks s.packs)).Nodup :=
    (amountsOf_perm (resortPacks_perm s.packs)).nodup_iff.2 hnd
  have hinv0 := obm_inv (resortPacks s.packs) R hpune hpupos
    (resortPacks_sorted s.packs) hpund (le_of_lt hR)
  exact mergePacksLoop_fix (fun p hp => le_of_lt (hinv0.qpos p hp)) hfalse _

/-- Witness for C2 at the catalog {2, 5} and R = 8.  There the greedy pass
leaves two lines of size 2 that no target divides, so no merge applies and
consolidation returns the stage-4.2 order unchanged. -/
theorem claim_C2_consolidation_preserves_total_witness :
    (({ packs := [⟨2⟩, ⟨5⟩], orders := [] } : PackStorage).packs ≠ [] ∧
     (∀ p ∈ ({ packs := [⟨2⟩, ⟨5⟩], orders := [] } : PackStorage).packs,
        0 < p.amount) ∧
     (amountsOf ({ packs := [⟨2⟩, ⟨5⟩], orders := [] }
        : PackStorage).packs).Nodup ∧ (0 : Int) < 8) ∧
    (linesTotal (mergePacks (resortPacks [⟨2⟩, ⟨5⟩])
        (orderBeforeMerge (resortPacks [⟨2⟩, ⟨5⟩]) 8)).packs
      = linesTotal (orderBeforeMerge (resortPacks [⟨2⟩, ⟨5⟩]) 8).packs ∧
    mergePacks (resortPacks [⟨2⟩, ⟨5⟩])
        (orderBeforeMerge (resortPacks [⟨2⟩, ⟨5⟩]) 8)
      = orderBeforeMerge (resortPacks [⟨2⟩, ⟨5⟩]) 8) :=
  ⟨⟨by decide, by decide, by decide, by decide⟩,
   (claim_C2_consolidation_preserves_total
     { packs := [⟨2⟩, ⟨5⟩], orders := [] } 8
     (by decide) (by decide) (by decide) (by decide)).1,
   (claim_C2_consolidation_preserves_total
     { packs := [⟨2⟩, ⟨5⟩], orders := [] } 8
     (by decide) (by decide) (by decide) (by decide)).2 (by decide)⟩

/-! ### Claim C6 -/

/-- C6: consolidation is idempotent on every Order produced by
`CalculateOrder`: running `mergePacks` again with the same catalog returns
the Order unchanged. -/
theorem claim_C6_consolidation_idempotent (N : Nat) (s : PackStorage)
    (R : Int) (hne : s.packs ≠ []) (hpos : ∀ p ∈ s.packs, 0 < p.amount)
    (hnd : (amountsOf s.packs).Nodup) (hR : 0 < R) :
    ∀ o : Order, (CalculateOrder N s R).1 = .ok o →
      mergePacks (resortPacks s.packs) o = o := by
  intro o ho
  rw [CalculateOrder_eq N s R hne] at ho
  have hoeq : o = mergePacks (resortPacks s.packs)
      (orderBeforeMerge (resortPacks s.packs) R) := by
    injection ho with h1
    exact h1.symm
  obtain ⟨m, hmmem, hmmin, hinvF, htotF, hreqF, htotF2, hoverF, hnoneF⟩ :=
    pipeline_main s R hne hpos hnd (le_of_lt hR)
  subst hoeq
  exact mergePacksLoop_fix (fun p hp => le_of_lt (hinvF.qpos p hp)) hnoneF _

/-- Witness for C6: catalog {2, 4, 8, 16}, R = 31 produces the consolidated
order 2×16, on which consolidation is a fixed point. -/
theorem claim_C6_consolidation_idempotent_witness :
    (({ packs := [⟨2⟩, ⟨4⟩, ⟨8⟩, ⟨16⟩], orders := [] }
        : PackStorage).packs ≠ [] ∧
     (∀ p ∈ ({ packs := [⟨2⟩, ⟨4⟩, ⟨8⟩, ⟨16⟩], orders := [] }
        : PackStorage).packs, 0 < p.amount) ∧
     (amountsOf ({ packs := [⟨2⟩, ⟨4⟩, ⟨8⟩, ⟨16⟩], orders := [] }
        : PackStorage).packs).Nodup ∧ (0 : Int) < 31) ∧
    mergePacks (resortPacks [⟨2⟩, ⟨4⟩, ⟨8⟩, ⟨16⟩])
        (calcOrder 20 { packs := [⟨2⟩, ⟨4⟩, ⟨8⟩, ⟨16⟩], orders := [] } 31)
      = calcOrder 20 { packs := [⟨2⟩, ⟨4⟩, ⟨8⟩, ⟨16⟩], orders := [] } 31 :=
  ⟨⟨by decide, by decide, by decide, by decide⟩,
   claim_C6_consolidation_idempotent 20
     { packs := [⟨2⟩, ⟨4⟩, ⟨8⟩, ⟨16⟩], orders := [] } 31
     (by decide) (by decide) (by decide) (by decide)
     (calcOrder 20 { packs := [⟨2⟩, ⟨4⟩, ⟨8⟩, ⟨16⟩], orders := [] } 31)
     rfl⟩

/-! ### Claim C1 -/

/-- C1 counterexample: with the non-empty catalog {2} and requested quantity
R = 3 > 0, `CalculateOrder` returns an order whose two lines both have pack
size 2, so the claim that no two lines share a pack size fails. -/
theorem claim_C1_counterexample :
    (CalculateOrder 20 { packs := [⟨2⟩], orders := [] } 3).1
      = .ok (calcOrder 20 { packs := [⟨2⟩], orders := [] } 3) ∧
    calcOrder 20 { packs := [⟨2⟩], orders := [] } 3
      = { requestedItems := 3, overpackedItems := 1, totalItems := 4,
          packs := [⟨1, ⟨2⟩⟩, ⟨1, ⟨2⟩⟩] } ∧
    ¬ (lineSizes (calcOrder 20 { packs := [⟨2⟩], orders := [] }
        3).packs).Nodup := by
  refine ⟨rfl, by decide, by decide⟩

/-- C1 as amended: for every positive requested quantity and non-empty
catalog of distinct positive pack sizes, no two lines of the returned Order
share a pack size, except that the smallest catalog size may appear on
exactly two lines (the greedy line and the residual line). -/
theorem claim_C1_amended_line_uniqueness (N : Nat) (s : PackStorage)
    (R : Int) (hne : s.packs ≠ []) (hpos : ∀ p ∈ s.packs, 0 < p.amount)
    (hnd : (amountsOf s.packs).Nodup) (hR : 0 < R) :
    ∀ o : Order, (CalculateOrder N s R).1 = .ok o →
      ∀ a : Int, 2 ≤ (linesOf a o.packs).length →
        (linesOf a o.packs).length = 2 ∧
        (∃ p ∈ s.packs, p.amount = a) ∧
        ∀ p ∈ s.packs, a ≤ p.amount := by
  intro o ho a ha
  rw [CalculateOrder_eq N s R hne] at ho
  have hoeq : o = mergePacks (resortPacks s.packs)
      (orderBeforeMerge (resortPacks s.packs) R) := by
    injection ho with h1
    exact h1.symm
  obtain ⟨m, hmmem, hmmin, hinvF, htotF, hreqF, htotF2, hoverF, hnoneF⟩ :=
    pipeline_main s R hne hpos hnd (le_of_lt hR)
  subst hoeq
  have ham : a = m := by
    by_contra hne2
    have := hinvF.single a hne2
    omega
  subst ham
  refine ⟨?_, hmmem, hmmin⟩
  have := hinvF.dlen
  omega

/-- Witness for the amended C1 at catalog {2}, R = 3: size 2 appears on
exactly two lines and is the smallest (only) catalog size. -/
theorem claim_C1_amended_line_uniqueness_witness :
    (({ packs := [⟨2⟩], orders := [] } : PackStorage).packs ≠ [] ∧
     (∀ p ∈ ({ packs := [⟨2⟩], orders := [] } : PackStorage).packs,
        0 < p.amount) ∧
     (amountsOf ({ packs := [⟨2⟩], orders := [] }
        : PackStorage).packs).Nodup ∧ (0 : Int) < 3 ∧
     2 ≤ (linesOf 2
       (calcOrder 20 { packs := [⟨2⟩], orders := [] } 3).packs).length) ∧
    ((linesOf 2
        (calcOrder 20 { packs := [⟨2⟩], orders := [] } 3).packs).length
      = 2 ∧
     (∃ p ∈ ({ packs := [⟨2⟩], orders := [] } : PackStorage).packs,
        p.amount = 2) ∧
     ∀ p ∈ ({ packs := [⟨2⟩], orders := [] } : PackStorage).packs,
        (2 : Int) ≤ p.amount) :=
  ⟨⟨by decide, by decide, by decide, by decide, by decide⟩,
   claim_C1_amended_line_uniqueness 20 { packs := [⟨2⟩], orders := [] } 3
     (by decide) (by decide) (by decide) (by decide)
     (calcOrder 20 { packs := [⟨2⟩], orders := [] } 3) rfl 2 (by decide)⟩

/-! ### Claim C7 -/

/-- C7: greedy fill, given a positive requested quantity and pack sizes
sorted strictly descending, performs one descending pass: the returned
remainder is ≥ 0 and accounts exactly for the items not covered by the
emitted lines, the lines appear in strictly descending size order, and no
line has quantity 0 (every quantity is positive).  The totalItems field
equals the items carried by the emitted lines. -/
theorem claim_C7_greedy_fill (packs : List Pack) (R : Int)
    (hpos : ∀ p ∈ packs, 0 < p.amount)
    (hsorted : packs.Pairwise (fun a b => b.amount < a.amount))
    (hR : 0 < R) :
    0 ≤ (useFullPacks packs (initOrder R)).1 ∧
    linesTotal (useFullPacks packs (initOrder R)).2.packs
      + (useFullPacks packs (initOrder R)).1 = R ∧
    (useFullPacks packs (initOrder R)).2.packs.Pairwise
      (fun l1 l2 => l2.pack.amount < l1.pack.amount) ∧
    (∀ l ∈ (useFullPacks packs (initOrder R)).2.packs, 0 < l.quantity) ∧
    (useFullPacks packs (initOrder R)).2.totalItems
      = linesTotal (useFullPacks packs (initOrder R)).2.packs := by
  obtain ⟨ha1, ha2, ha3, ha4, ha5, ha6, new, hb1, hb2, hb3, hb4⟩ :=
    ufp_main packs R (initOrder R) hpos (le_of_lt hR)
  have hufp : useFullPacks packs (initOrder R)
      = useFullPacksAux packs R (initOrder R) := rfl
  have hb1' : (useFullPacksAux packs R (initOrder R)).2.packs = new := by
    simpa [initOrder] using hb1
  rw [hufp, hb1']
  have hpw : new.Pairwise (fun l1 l2 => l2.pack.amount < l1.pack.amount) := by
    have h1 : (new.map OrderPack.pack).Pairwise
        (fun a b => b.amount < a.amount) :=
      List.Pairwise.sublist hb3 hsorted
    exact (List.pairwise_map.1 h1)
  have htot : (useFullPacksAux packs R (initOrder R)).2.totalItems
      = linesTotal new := by
    have h6 : (useFullPacksAux packs R (initOrder R)).2.totalItems
        + (useFullPacksAux packs R (initOrder R)).1 = 0 + R := ha6
    omega
  exact ⟨ha3, by omega, hpw, hb2, htot⟩

/-- Witness for C7 at packs [5, 2] (strictly descending) and R = 8. -/
theorem claim_C7_greedy_fill_witness :
    ((∀ p ∈ [(⟨5⟩ : Pack), ⟨2⟩], 0 < p.amount) ∧
     ([(⟨5⟩ : Pack), ⟨2⟩].Pairwise (fun a b => b.amount < a.amount)) ∧
     (0 : Int) < 8) ∧
    (0 ≤ (useFullPacks [⟨5⟩, ⟨2⟩] (initOrder 8)).1 ∧
    linesTotal (useFullPacks [⟨5⟩, ⟨2⟩] (initOrder 8)).2.packs
      + (useFullPacks [⟨5⟩, ⟨2⟩] (initOrder 8)).1 = 8 ∧
    (useFullPacks [⟨5⟩, ⟨2⟩] (initOrder 8)).2.packs.Pairwise
      (fun l1 l2 => l2.pack.amount < l1.pack.amount) ∧
    (∀ l ∈ (useFullPacks [⟨5⟩, ⟨2⟩] (initOrder 8)).2.packs,
      0 < l.quantity) ∧
    (useFullPacks [⟨5⟩, ⟨2⟩] (initOrder 8)).2.totalItems
      = linesTotal (useFullPacks [⟨5⟩, ⟨2⟩] (initOrder 8)).2.packs) :=
  ⟨⟨by decide, by decide, by decide⟩,
   claim_C7_greedy_fill [⟨5⟩, ⟨2⟩] 8 (by decide) (by decide) (by decide)⟩

/-! ### Claim C8 -/

theorem runCalcs_nil (N : Nat) (s : PackStorage) : runCalcs N s [] = s := rfl

theorem runCalcs_cons (N : Nat) (s : PackStorage) (r : Int) (rs : List Int) :
    runCalcs N s (r :: rs) = runCalcs N (CalculateOrder N s r).2 rs := rfl

theorem runCalcs_append (N : Nat) (s : PackStorage) (l1 l2 : List Int) :
    runCalcs N s (l1 ++ l2) = runCalcs N (runCalcs N s l1) l2 :=
  List.foldl_append _ _ l1 l2

theorem calcOutputs_cons_ok {N : Nat} {s : PackStorage} {r : Int}
    {o : Order} {s' : PackStorage} (rs : List Int)
    (h : CalculateOrder N s r = (.ok o, s')) :
    calcOutputs N s (r :: rs) = o :: calcOutputs N s' rs := by
  simp only [calcOutputs, h]

theorem calcOutputs_append (N : Nat) (l1 l2 : List Int) :
    ∀ s : PackStorage, calcOutputs N s (l1 ++ l2)
      = calcOutputs N s l1 ++ calcOutputs N (runCalcs N s l1) l2 := by
  induction l1 with
  | nil => intro s; simp [calcOutputs, runCalcs_nil]
  | cons r rest ih =>
    intro s
    rcases hco : CalculateOrder N s r with ⟨res, s'⟩
    cases res with
    | ok o =>
      rw [List.cons_append]
      rw [calcOutputs_cons_ok (rest ++ l2) hco, calcOutputs_cons_ok rest hco]
      rw [ih s', List.cons_append, runCalcs_cons, hco]
    | error e =>
      rw [List.cons_append]
      simp only [calcOutputs, hco]
      rw [ih s', runCalcs_cons, hco]

theorem runCalcs_no_evict (N : Nat) : ∀ (rs : List Int) (s : PackStorage),
    s.packs ≠ [] → s.orders.length + rs.length ≤ N →
    (runCalcs N s rs).orders = s.orders ++ calcOutputs N s rs ∧
    (calcOutputs N s rs).length = rs.length ∧
    (runCalcs N s rs).packs ≠ [] := by
  intro rs
  induction rs with
  | nil =>
    intro s hne hlen
    exact ⟨by simp [runCalcs_nil, calcOutputs], rfl, hne⟩
  | cons r rest ih =>
    intro s hne hlen
    have hcalc := CalculateOrder_eq N s r hne
    have hno : ¬ N ≤ s.orders.length := by
      simp only [List.length_cons] at hlen
      omega
    rw [if_neg hno] at hcalc
    have hs' := runCalcs_cons N s r rest
    rw [hcalc] at hs'
    obtain ⟨ih1, ih2, ih3⟩ := ih
      { packs := resortPacks s.packs,
        orders := s.orders ++ [mergePacks (resortPacks s.packs)
          (orderBeforeMerge (resortPacks s.packs) r)] }
      (resortPacks_ne_nil hne)
      (by
        simp only [List.length_cons] at hlen
        simp only [List.length_append, List.length_singleton]
        omega)
    rw [hs']
    refine ⟨?_, ?_, ih3⟩
    · rw [ih1, calcOutputs_cons_ok rest hcalc]
      simp
    · rw [calcOutputs_cons_ok rest hcalc]
      simp only [List.length_cons]
      omega

/-- C8: with history cap N ≥ 1, starting from an empty history and a
non-empty catalog, after N+1 successful `CalculateOrder` calls the stored
history holds exactly N entries: it equals the list of the N+1 produced
orders with the oldest dropped, so relative order is preserved and the
newest order is last. -/
theorem claim_C8_history_cap (N : Nat) (s : PackStorage) (rs : List Int)
    (hN : 1 ≤ N) (hne : s.packs ≠ []) (hord : s.orders = [])
    (hlen : rs.length = N + 1) :
    (calcOutputs N s rs).length = N + 1 ∧
    (runCalcs N s rs).orders = (calcOutputs N s rs).drop 1 ∧
    (runCalcs N s rs).orders.length = N := by
  have hrsne : rs ≠ [] := by
    intro hc; rw [hc] at hlen; simp only [List.length_nil] at hlen; omega
  have hsplit : rs = rs.dropLast ++ [rs.getLast hrsne] :=
    (List.dropLast_append_getLast hrsne).symm
  have hdllen : rs.dropLast.length = N := by
    rw [List.length_dropLast, hlen]
    omega
  obtain ⟨h1, h2, h3⟩ := runCalcs_no_evict N rs.dropLast s hne
    (by rw [hord, hdllen]; simp)
  have hs1orders : (runCalcs N s rs.dropLast).orders
      = calcOutputs N s rs.dropLast := by
    rw [h1, hord, List.nil_append]
  have hs1len : (runCalcs N s rs.dropLast).orders.length = N := by
    rw [hs1orders, h2, hdllen]
  have hcalc2 := CalculateOrder_eq N (runCalcs N s rs.dropLast)
    (rs.getLast hrsne) h3
  have hyes : N ≤ (runCalcs N s rs.dropLast).orders.length := by
    rw [hs1len]
  rw [if_pos hyes] at hcalc2
  have hdrop1 : (runCalcs N s rs.dropLast).orders.length - (N - 1) = 1 := by
    rw [hs1len]; omega
  have houts : calcOutputs N s rs
      = calcOutputs N s rs.dropLast
        ++ [mergePacks (resortPacks (runCalcs N s rs.dropLast).packs)
            (orderBeforeMerge (resortPacks (runCalcs N s rs.dropLast).packs)
              (rs.getLast hrsne))] := by
    conv_lhs => rw [hsplit]
    rw [calcOutputs_append]
    congr 1
    rw [calcOutputs_cons_ok [] hcalc2]
    rfl
  have hrun : (runCalcs N s rs).orders
      = (calcOutputs N s rs.dropLast).drop 1
        ++ [mergePacks (resortPacks (runCalcs N s rs.dropLast).packs)
            (orderBeforeMerge (resortPacks (runCalcs N s rs.dropLast).packs)
              (rs.getLast hrsne))] := by
    conv_lhs => rw [hsplit]
    rw [runCalcs_append]
    have : runCalcs N (runCalcs N s rs.dropLast) [rs.getLast hrsne]
        = (CalculateOrder N (runCalcs N s rs.dropLast)
            (rs.getLast hrsne)).2 := rfl
    rw [this, hcalc2]
    simp only []
    rw [hdrop1, hs1orders]
  have houtlen : (calcOutputs N s rs).length = N + 1 := by
    rw [houts, List.length_append, h2, hdllen]
    simp
  refine ⟨houtlen, ?_, ?_⟩
  · rw [hrun, houts, List.drop_append_of_le_length (by rw [h2, hdllen]; omega)]
  · rw [hrun, List.length_append, List.length_drop, h2, hdllen]
    simp
    omega

/-- Witness for C8: cap 2, catalog {2}, three calls leave exactly the last
two orders in the history. -/
theorem claim_C8_history_cap_witness :
    ((1 : Nat) ≤ 2 ∧
     ({ packs := [⟨2⟩], orders := [] } : PackStorage).packs ≠ [] ∧
     ({ packs := [⟨2⟩], orders := [] } : PackStorage).orders = [] ∧
     ([2, 4, 6] : List Int).length = 2 + 1) ∧
    ((calcOutputs 2 { packs := [⟨2⟩], orders := [] } [2, 4, 6]).length
       = 2 + 1 ∧
     (runCalcs 2 { packs := [⟨2⟩], orders := [] } [2, 4, 6]).orders
       = (calcOutputs 2 { packs := [⟨2⟩], orders := [] } [2, 4, 6]).drop 1 ∧
     (runCalcs 2 { packs := [⟨2⟩], orders := [] } [2, 4, 6]).orders.length
       = 2) :=
  ⟨⟨by decide, by decide, rfl, rfl⟩,
   claim_C8_history_cap 2 { packs := [⟨2⟩], orders := [] } [2, 4, 6]
     (by decide) (by decide) rfl rfl⟩

/-! ### Claim C10 -/

theorem strict_of_sorted_nodup {l : List Pack}
    (hs : List.Sorted packDesc l) (hnd : (amountsOf l).Nodup) :
    l.Pairwise (fun a b => b.amount < a.amount) := by
  have h1 : l.Pairwise packDesc := hs
  have h2 : l.Pairwise (fun a b => a.amount ≠ b.amount) :=
    List.pairwise_map.1 hnd
  refine (h1.and h2).imp ?_
  intro a b hab
  obtain ⟨hle, hne⟩ := hab
  rw [packDesc] at hle
  omega

theorem nodup_of_strict {l : List Pack}
    (h : l.Pairwise (fun a b => b.amount < a.amount)) :
    (amountsOf l).Nodup := by
  refine List.pairwise_map.2 ?_
  refine h.imp ?_
  intro a b hab
  omega

theorem AddPack_inv {N : Nat} {s : PackStorage} {amount : Int}
    (hinv : s.packs.Pairwise (fun a b => b.amount < a.amount))
    (hlen : s.packs.length ≤ N) :
    (AddPack N s amount).2.packs.Pairwise
      (fun a b => b.amount < a.amount) ∧
    (AddPack N s amount).2.packs.length ≤ N := by
  rw [AddPack]
  by_cases h1 : s.packs.any (fun p => decide (p.amount = amount))
  · rw [if_pos h1]
    exact ⟨hinv, hlen⟩
  · rw [if_neg h1]
    by_cases h2 : N ≤ s.packs.length
    · rw [if_pos h2]
      exact ⟨hinv, hlen⟩
    · rw [if_neg h2]
      constructor
      · apply strict_of_sorted_nodup (resortPacks_sorted _)
        refine (amountsOf_perm (resortPacks_perm _)).nodup_iff.2 ?_
        rw [show amountsOf (s.packs ++ [⟨amount⟩])
            = amountsOf s.packs ++ [amount] by simp [amountsOf]]
        refine List.Nodup.append (nodup_of_strict hinv) (by simp) ?_
        intro a ha hb
        simp only [List.mem_singleton] at hb
        subst hb
        obtain ⟨p, hp, hpa⟩ := List.mem_map.1 ha
        exact h1 (List.any_eq_true.2 ⟨p, hp, by simp [hpa]⟩)
      · have := (resortPacks_perm (s.packs ++ [⟨amount⟩])).length_eq
        simp only [List.length_append, List.length_singleton] at this
        simp only []
        omega

theorem updateFirst_some_eq : ∀ {l : List Pack} {oldA newA : Int}
    {l' : List Pack}, updateFirst l oldA newA = some l' →
    ∃ l1 p l2, l = l1 ++ p :: l2 ∧ p.amount = oldA ∧
      l' = l1 ++ (⟨newA⟩ : Pack) :: l2 := by
  intro l
  induction l with
  | nil => intro oldA newA l' h; simp [updateFirst] at h
  | cons x rest ih =>
    intro oldA newA l' h
    rw [updateFirst] at h
    by_cases hx : x.amount = oldA
    · rw [if_pos hx] at h
      injection h with h1
      exact ⟨[], x, rest, by simp, hx, by simp [← h1]⟩
    · rw [if_neg hx] at h
      cases hrec : updateFirst rest oldA newA with
      | none => rw [hrec] at h; simp at h
      | some lr =>
        rw [hrec] at h
        have hl' : l' = x :: lr := by
          have := h
          simp only [Option.map] at this
          injection this with h2
          exact h2.symm
        obtain ⟨l1, p, l2, he, hpa, he2⟩ := ih hrec
        exact ⟨x :: l1, p, l2, by simp [he], hpa, by simp [hl', he2]⟩

theorem deleteFirst_some_eq : ∀ {l : List Pack} {amount : Int}
    {l' : List Pack}, deleteFirst l amount = some l' →
    ∃ l1 p l2, l = l1 ++ p :: l2 ∧ p.amount = amount ∧ l' = l1 ++ l2 := by
  intro l
  induction l with
  | nil => intro amount l' h; simp [deleteFirst] at h
  | cons x rest ih =>
    intro amount l' h
    rw [deleteFirst] at h
    by_cases hx : x.amount = amount
    · rw [if_pos hx] at h
      injection h with h1
      exact ⟨[], x, rest, by simp, hx, by simp [← h1]⟩
    · rw [if_neg hx] at h
      cases hrec : deleteFirst rest amount with
      | none => rw [hrec] at h; simp at h
      | some lr =>
        rw [hrec] at h
        have hl' : l' = x :: lr := by
          have := h
          simp only [Option.map] at this
          injection this with h2
          exact h2.symm
        obtain ⟨l1, p, l2, he, hpa, he2⟩ := ih hrec
        exact ⟨x :: l1, p, l2, by simp [he], hpa, by simp [hl', he2]⟩

theorem UpdatePack_inv {s : PackStorage} {oldA newA : Int}
    (hinv : s.packs.Pairwise (fun a b => b.amount < a.amount)) :
    (UpdatePack s oldA newA).2.packs.Pairwise
      (fun a b => b.amount < a.amount) ∧
    (UpdatePack s oldA newA).2.packs.length = s.packs.length := by
  rw [UpdatePack]
  by_cases h1 : s.packs.any (fun p => decide (p.amount = newA))
  · rw [if_pos h1]
    exact ⟨hinv, rfl⟩
  · rw [if_neg h1]
    cases hu : updateFirst s.packs oldA newA with
    | none => exact ⟨hinv, rfl⟩
    | some l' =>
      obtain ⟨l1, p, l2, he, hpa, he2⟩ := updateFirst_some_eq hu
      have hnewA : newA ∉ amountsOf s.packs := by
        intro hc
        obtain ⟨q, hq, hqa⟩ := List.mem_map.1 hc
        exact h1 (List.any_eq_true.2 ⟨q, hq, by simp [hqa]⟩)
      have hndold : (amountsOf s.packs).Nodup := nodup_of_strict hinv
      have hamts : amountsOf s.packs
          = amountsOf l1 ++ p.amount :: amountsOf l2 := by
        rw [he]
        simp [amountsOf]
      have hamts' : amountsOf l' = amountsOf l1 ++ newA :: amountsOf l2 := by
        rw [he2]
        simp [amountsOf]
      have hndnew : (amountsOf l').Nodup := by
        rw [hamts'] at *
        rw [hamts] at hndold hnewA
        obtain ⟨hn1, hn2, hdisj⟩ := List.nodup_append.1 hndold
        obtain ⟨hpn, hn3⟩ := List.nodup_cons.1 hn2
        refine List.nodup_append.2 ⟨hn1, ?_, ?_⟩
        · refine List.nodup_cons.2 ⟨?_, hn3⟩
          intro hc
          exact hnewA (List.mem_append.2 (Or.inr (List.mem_cons.2 (Or.inr hc))))
        · intro a ha hb
          rcases List.mem_cons.1 hb with hb1 | hb1
          · subst hb1
            exact hnewA (List.mem_append.2 (Or.inl ha))
          · exact hdisj ha (List.mem_cons.2 (Or.inr hb1))
      constructor
      · exact strict_of_sorted_nodup (resortPacks_sorted l')
          ((amountsOf_perm (resortPacks_perm l')).nodup_iff.2 hndnew)
      · have h1 := (resortPacks_perm l').length_eq
        have h2 : l'.length = s.packs.length := by
          rw [he, he2]
          simp
        simp only []
        omega

theorem DeletePack_inv {s : PackStorage} {amount : Int}
    (hinv : s.packs.Pairwise (fun a b => b.amount < a.amount)) :
    (DeletePack s amount).2.packs.Pairwise
      (fun a b => b.amount < a.amount) ∧
    (DeletePack s amount).2.packs.length ≤ s.packs.length := by
  rw [DeletePack]
  cases hd : deleteFirst s.packs amount with
  | none => exact ⟨hinv, le_refl _⟩
  | some l' =>
    obtain ⟨l1, p, l2, he, hpa, he2⟩ := deleteFirst_some_eq hd
    have hsub : List.Sublist l' s.packs := by
      rw [he, he2]
      exact List.Sublist.append (List.Sublist.refl l1) (List.Sublist.cons p (List.Sublist.refl l2))
    constructor
    · exact List.Pairwise.sublist hsub hinv
    · exact hsub.length_le

/-- C10: after any sequence of AddPack, UpdatePack and DeletePack
operations starting from the empty storage, the stored catalog is strictly
descending by amount (hence has pairwise-distinct amounts) and holds at
most SoftLimit packs; each mutator preserves this invariant. -/
theorem claim_C10_catalog_invariant (N : Nat) (ops : List CatalogOp) :
    (applyOps N NewPackStorage ops).packs.Pairwise
      (fun a b => b.amount < a.amount) ∧
    (amountsOf (applyOps N NewPackStorage ops).packs).Nodup ∧
    (applyOps N NewPackStorage ops).packs.length ≤ N := by
  suffices h : ∀ (ops : List CatalogOp) (s : PackStorage),
      s.packs.Pairwise (fun a b => b.amount < a.amount) →
      s.packs.length ≤ N →
      (applyOps N s ops).packs.Pairwise (fun a b => b.amount < a.amount) ∧
      (applyOps N s ops).packs.length ≤ N by
    obtain ⟨h1, h2⟩ := h ops NewPackStorage (by simp [NewPackStorage])
      (by simp [NewPackStorage])
    exact ⟨h1, nodup_of_strict h1, h2⟩
  intro ops
  induction ops with
  | nil => intro s h1 h2; exact ⟨h1, h2⟩
  | cons op rest ih =>
    intro s h1 h2
    have hstep : (applyOp N s op).packs.Pairwise
        (fun a b => b.amount < a.amount) ∧
        (applyOp N s op).packs.length ≤ N := by
      cases op with
      | add amount =>
        simp only [applyOp]
        exact AddPack_inv h1 h2
      | update oldA newA =>
        simp only [applyOp]
        obtain ⟨hu1, hu2⟩ := @UpdatePack_inv s oldA newA h1
        exact ⟨hu1, by omega⟩
      | del amount =>
        simp only [applyOp]
        obtain ⟨hd1, hd2⟩ := @DeletePack_inv s amount h1
        exact ⟨hd1, by omega⟩
    exact ih (applyOp N s op) hstep.1 hstep.2

/-! ### Claim C4: determinism under the unspecified map iteration order -/

theorem find?_perm_of_unique {α : Type} {l l' : List α} {p : α → Bool}
    (hperm : l'.Perm l)
    (huniq : ∀ e1 ∈ l, ∀ e2 ∈ l, p e1 = true → p e2 = true → e1 = e2) :
    l'.find? p = l.find? p := by
  cases hf : l.find? p with
  | none =>
    rw [List.find?_eq_none] at hf ⊢
    intro x hx
    exact hf x (hperm.mem_iff.1 hx)
  | some a =>
    have hpa := List.find?_some hf
    have hma := List.mem_of_find?_eq_some hf
    cases hf' : l'.find? p with
    | none =>
      exact absurd hpa (List.find?_eq_none.1 hf' a (hperm.mem_iff.2 hma))
    | some b =>
      have hpb := List.find?_some hf'
      have hmb := hperm.mem_iff.1 (List.mem_of_find?_eq_some hf')
      rw [huniq b hmb a hma hpb hpa]

theorem sameSizeQual_unique {avail : List Pack} {m : Int}
    {lines : List OrderPack}
    (hApos : ∀ a ∈ amountsOf avail, 0 < a)
    (hmmin : ∀ a ∈ amountsOf avail, m ≤ a)
    (hinv : MergeInv (amountsOf avail) m lines) :
    ∀ T ∈ amountsOf avail, ∀ e1 ∈ sizeGroups lines,
      ∀ e2 ∈ sizeGroups lines,
      sameSizeQual T e1 = true → sameSizeQual T e2 = true → e1 = e2 := by
  intro T hT e1 he1 e2 he2 hq1 hq2
  obtain ⟨h1s, h1c⟩ := (sizeGroups_mem e1).1 he1
  obtain ⟨h2s, h2c⟩ := (sizeGroups_mem e2).1 he2
  by_cases hkey : e1.1 = e2.1
  · have hcnt : e1.2 = e2.2 := by rw [h1c, h2c, hkey]
    exact Prod.ext hkey hcnt
  · exfalso
    unfold sameSizeQual at hq1 hq2
    simp only [Bool.and_eq_true, decide_eq_true_eq] at hq1 hq2
    obtain ⟨⟨h1lt, h1mod⟩, h1div⟩ := hq1
    obtain ⟨⟨h2lt, h2mod⟩, h2div⟩ := hq2
    have hS1A : e1.1 ∈ amountsOf avail := by
      obtain ⟨p, hp, hpa⟩ := List.mem_map.1 h1s
      rw [← hpa]; exact hinv.sizesIn p hp
    have hS2A : e2.1 ∈ amountsOf avail := by
      obtain ⟨p, hp, hpa⟩ := List.mem_map.1 h2s
      rw [← hpa]; exact hinv.sizesIn p hp
    have hS1pos := hApos _ hS1A
    have hS2pos := hApos _ hS2A
    have hTpos := hApos _ hT
    have h1mult : goDiv T e1.1 * e1.1 = T :=
      goDiv_mul_cancel (le_of_lt hTpos) hS1pos h1mod
    have h2mult : goDiv T e2.1 * e2.1 = T :=
      goDiv_mul_cancel (le_of_lt hTpos) hS2pos h2mod
    have hc1 : T ≤ qsum e1.1 lines * e1.1 := by
      rw [← h1mult]
      refine mul_le_mul_of_nonneg_right ?_ (le_of_lt hS1pos)
      rw [← h1c]; exact h1div
    have hc2 : T ≤ qsum e2.1 lines * e2.1 := by
      rw [← h2mult]
      refine mul_le_mul_of_nonneg_right ?_ (le_of_lt hS2pos)
      rw [← h2c]; exact h2div
    have hprod := inv_prod_nonneg hApos hinv
    have hvge := vBelow_ge_qsum_two hkey h1lt h2lt hprod
    have hvb := hinv.vbound T hT
    have hm1 : m ≤ e1.1 := hmmin _ hS1A
    omega

theorem fssm_perm : ∀ (avail : List Pack) {groups groups' : List (Int × Int)},
    groups'.Perm groups →
    (∀ T ∈ amountsOf avail, ∀ e1 ∈ groups, ∀ e2 ∈ groups,
      sameSizeQual T e1 = true → sameSizeQual T e2 = true → e1 = e2) →
    findSameSizeMerge avail groups' = findSameSizeMerge avail groups := by
  intro avail
  induction avail with
  | nil => intro groups groups' _ _; rfl
  | cons t rest ih =>
    intro groups groups' hperm huniq
    rw [findSameSizeMerge, findSameSizeMerge]
    have hfeq : groups'.find? (sameSizeQual t.amount)
        = groups.find? (sameSizeQual t.amount) :=
      find?_perm_of_unique hperm (huniq t.amount (by simp [amountsOf]))
    rw [hfeq]
    cases groups.find? (sameSizeQual t.amount) with
    | some g => rfl
    | none =>
      refine ih hperm ?_
      intro T hT
      refine huniq T ?_
      simp only [amountsOf, List.map_cons, List.mem_cons]
      right
      simpa [amountsOf] using hT

theorem mergePacksLoopWith_eq {avail : List Pack} {m : Int}
    (hApos : ∀ a ∈ amountsOf avail, 0 < a)
    (hmmin : ∀ a ∈ amountsOf avail, m ≤ a)
    (sched : Nat → List (Int × Int) → List (Int × Int))
    (hsched : ∀ n g, (sched n g).Perm g) :
    ∀ (fuel : Nat) (o : Order), MergeInv (amountsOf avail) m o.packs →
      mergePacksLoopWith avail sched fuel o
        = mergePacksLoop avail fuel o := by
  intro fuel
  induction fuel with
  | zero => intro o _; rfl
  | succ n ih =>
    intro o hinv
    have hfeq : findSameSizeMerge avail (sched n (sizeGroups o.packs))
        = findSameSizeMerge avail (sizeGroups o.packs) :=
      fssm_perm avail (hsched n _)
        (sameSizeQual_unique hApos hmmin hinv)
    have hron : tryMergeSameSizePacksOn avail
        (sched n (sizeGroups o.packs)) o
        = tryMergeSameSizePacks avail o := by
      rw [tryMergeSameSizePacks, tryMergeSameSizePacksOn,
        tryMergeSameSizePacksOn, hfeq]
    rw [mergePacksLoopWith, mergePacksLoop, hron]
    cases hf : findSameSizeMerge avail (sizeGroups o.packs) with
    | some st =>
      obtain ⟨S, T⟩ := st
      have hr : tryMergeSameSizePacks avail o
          = (true, mergePack o S T (goDiv T S)) := by
        rw [tryMergeSameSizePacks, tryMergeSameSizePacksOn, hf]
      rw [hr]
      simp only [if_true]
      obtain ⟨hinv', _, _, _, _, _⟩ := merge_step hApos hmmin hinv hf
      exact ih _ hinv'
    | none =>
      have hr : tryMergeSameSizePacks avail o = (false, o) := by
        rw [tryMergeSameSizePacks, tryMergeSameSizePacksOn, hf]
      rw [hr]
      simp only [Bool.false_eq_true, if_false]
      have hd : tryMergeDifferentSizePacks avail o = o := by
        rw [tryMergeDifferentSizePacks,
          fdsm_none_of_fssm_none (fun p hp => le_of_lt (hinv.qpos p hp)) hf]
      rw [hd]
      exact ih o hinv

theorem CalculateOrderWith_eq
    (sched : Nat → List (Int × Int) → List (Int × Int))
    (N : Nat) (s : PackStorage) (R : Int) (hne : s.packs ≠ []) :
    CalculateOrderWith sched N s R =
      (.ok (mergePacksWith sched (resortPacks s.packs)
          (orderBeforeMerge (resortPacks s.packs) R)),
       { packs := resortPacks s.packs,
         orders := (if N ≤ s.orders.length
             then s.orders.drop (s.orders.length - (N - 1)) else s.orders)
           ++ [mergePacksWith sched (resortPacks s.packs)
                (orderBeforeMerge (resortPacks s.packs) R)] }) := by
  rw [CalculateOrderWith, if_neg (by simp [hne])]

/-- C4: `CalculateOrder` is deterministic.  The only under-specified point
of the computation is the iteration order of the Go map `sizeGroups`;
modelling that order by an arbitrary per-iteration permutation schedule,
any two schedules produce identical results (same Order, same line order,
same stored state), both equal to the canonical first-insertion-order run.
The proof rests on the invariant that at most one size group can ever
qualify for a given merge target, so the scan's choice never depends on the
enumeration order. -/
theorem claim_C4_deterministic (N : Nat) (s : PackStorage) (R : Int)
    (hne : s.packs ≠ []) (hpos : ∀ p ∈ s.packs, 0 < p.amount)
    (hnd : (amountsOf s.packs).Nodup) (hR : 0 < R)
    (sched1 sched2 : Nat → List (Int × Int) → List (Int × Int))
    (h1 : ∀ n g, (sched1 n g).Perm g) (h2 : ∀ n g, (sched2 n g).Perm g) :
    CalculateOrderWith sched1 N s R = CalculateOrderWith sched2 N s R ∧
    CalculateOrderWith sched1 N s R = CalculateOrder N s R := by
  suffices h : ∀ sched : Nat → List (Int × Int) → List (Int × Int),
      (∀ n g, (sched n g).Perm g) →
      CalculateOrderWith sched N s R = CalculateOrder N s R by
    exact ⟨(h sched1 h1).trans (h sched2 h2).symm, h sched1 h1⟩
  intro sched hsched
  have hpune : resortPacks s.packs ≠ [] := resortPacks_ne_nil hne
  have hpu_perm := resortPacks_perm s.packs
  have hpupos : ∀ p ∈ resortPacks s.packs, 0 < p.amount :=
    fun p hp => hpos p (hpu_perm.mem_iff.1 hp)
  have hpusort := resortPacks_sorted s.packs
  have hpuA : (amountsOf (resortPacks s.packs)).Perm (amountsOf s.packs) :=
    amountsOf_perm hpu_perm
  have hpund : (amountsOf (resortPacks s.packs)).Nodup :=
    hpuA.nodup_iff.2 hnd
  have hav_perm := getSortedPackSizes_perm (resortPacks s.packs)
  have havA : (amountsOf (getSortedPackSizes (resortPacks s.packs))).Perm
      (amountsOf (resortPacks s.packs)) := amountsOf_perm hav_perm
  have hAiff : ∀ a,
      a ∈ amountsOf (resortPacks s.packs)
        ↔ a ∈ amountsOf (getSortedPackSizes (resortPacks s.packs)) :=
    fun a => (havA.mem_iff).symm
  have hmmin : ∀ a ∈ amountsOf (resortPacks s.packs),
      ((resortPacks s.packs).getLast hpune).amount ≤ a := by
    intro a ha
    obtain ⟨p, hp, hpa⟩ := List.mem_map.1 ha
    rw [← hpa]
    exact sorted_getLast_min hpusort hpune p hp
  have hinv0 : MergeInv
      (amountsOf (getSortedPackSizes (resortPacks s.packs)))
      ((resortPacks s.packs).getLast hpune).amount
      (orderBeforeMerge (resortPacks s.packs) R).packs :=
    MergeInv_congr hAiff
      (obm_inv (resortPacks s.packs) R hpune hpupos hpusort hpund
        (le_of_lt hR))
  have hApos' : ∀ a ∈ amountsOf (getSortedPackSizes (resortPacks s.packs)),
      0 < a := by
    intro a ha
    obtain ⟨p, hp, hpa⟩ := List.mem_map.1 ((hAiff a).2 ha)
    rw [← hpa]
    exact hpupos p hp
  have hmmin' : ∀ a ∈ amountsOf (getSortedPackSizes (resortPacks s.packs)),
      ((resortPacks s.packs).getLast hpune).amount ≤ a :=
    fun a ha => hmmin a ((hAiff a).2 ha)
  rw [CalculateOrderWith_eq sched N s R hne, CalculateOrder_eq N s R hne]
  have hmw : mergePacksWith sched (resortPacks s.packs)
      (orderBeforeMerge (resortPacks s.packs) R)
      = mergePacks (resortPacks s.packs)
        (orderBeforeMerge (resortPacks s.packs) R) :=
    mergePacksLoopWith_eq hApos' hmmin' sched hsched
      (getSortedPackSizes (resortPacks s.packs)).length
      (orderBeforeMerge (resortPacks s.packs) R) hinv0
  rw [hmw]

/-- Witness for C4: catalog {2, 4}, R = 7, with the identity schedule and
the reversing schedule as two concrete map-enumeration orders. -/
theorem claim_C4_deterministic_witness :
    (({ packs := [⟨2⟩, ⟨4⟩], orders := [] } : PackStorage).packs ≠ [] ∧
     (∀ p ∈ ({ packs := [⟨2⟩, ⟨4⟩], orders := [] } : PackStorage).packs,
        0 < p.amount) ∧
     (amountsOf ({ packs := [⟨2⟩, ⟨4⟩], orders := [] }
        : PackStorage).packs).Nodup ∧ (0 : Int) < 7) ∧
    (CalculateOrderWith (fun _ g => g) 20
        { packs := [⟨2⟩, ⟨4⟩], orders := [] } 7
      = CalculateOrderWith (fun _ g => g.reverse) 20
          { packs := [⟨2⟩, ⟨4⟩], orders := [] } 7 ∧
     CalculateOrderWith (fun _ g => g) 20
        { packs := [⟨2⟩, ⟨4⟩], orders := [] } 7
      = CalculateOrder 20 { packs := [⟨2⟩, ⟨4⟩], orders := [] } 7) :=
  ⟨⟨by decide, by decide, by decide, by decide⟩,
   claim_C4_deterministic 20 { packs := [⟨2⟩, ⟨4⟩], orders := [] } 7
     (by decide) (by decide) (by decide) (by decide)
     (fun _ g => g) (fun _ g => g.reverse)
     (fun _ g => List.Perm.refl g) (fun _ g => List.reverse_perm g)⟩
